import Mathlib

/-!
# volctl: status parser, volume controller, mixer state and renderer

A shallow embedding of `src/main.go` (a terminal volume mixer driving `pactl`).

Modelling conventions.

* A Go `string` is modelled as `Str = List Char`, the sequence of its code points
  (status text is taken to be valid UTF-8).
* A Go `int` is modelled as an `Int`; the platform is taken to be 64-bit, and the
  arithmetic that can leave the 64-bit range is wrapped explicitly by `wrapInt`.
* The external program `pactl` is modelled by a `Daemon`: a state type with the two
  invocations the program makes (`list sink-inputs` and `set-sink-input-volume`).
  The `World` threaded through the effectful functions also records every
  `set-sink-input-volume` invocation made so far.
* Where the program measures or cuts a string in bytes (`len`, slicing), the bytes
  are those of `utf8Encode`.
* Whether the strings built by the renderer can be allocated is decided by a `Memory`,
  within the limit of 2^48 bytes that the runtime puts on one allocation.
-/

namespace Volctl

/-- Go strings, as sequences of code points. -/
abbrev Str := List Char

/-! ## The pieces of the Go standard library used by the program -/

/-- Two's-complement wrap-around of a mathematical integer to Go's 64-bit `int`. -/
def wrapInt (x : Int) : Int := (x + 2 ^ 63) % 2 ^ 64 - 2 ^ 63

/-- The function `unicode.IsSpace`: the code points with Unicode's White_Space property. -/
def isSpace (c : Char) : Bool :=
  let n := c.toNat
  (9 ≤ n && n ≤ 13) || n == 32 || n == 133 || n == 160 || n == 5760 ||
  (8192 ≤ n && n ≤ 8202) || n == 8232 || n == 8233 || n == 8239 || n == 8287 || n == 12288

/-- Removal of the longest suffix whose characters all satisfy `p`. -/
def dropWhileEnd (p : Char → Bool) (s : Str) : Str :=
  (s.reverse.dropWhile p).reverse

/-- The function `strings.TrimSpace`: leading and trailing white space removed. -/
def TrimSpace (s : Str) : Str :=
  dropWhileEnd isSpace (s.dropWhile isSpace)

/-- The function `strings.Trim`: leading and trailing characters of `cutset` removed. -/
def Trim (s cutset : Str) : Str :=
  dropWhileEnd (fun c => cutset.contains c) (s.dropWhile (fun c => cutset.contains c))

/-- The function `strings.HasPrefix`. -/
def HasPrefix (s pre : Str) : Bool := pre.isPrefixOf s

/-- The function `strings.TrimPrefix`. -/
def TrimPrefix (s pre : Str) : Str :=
  if HasPrefix s pre then s.drop pre.length else s

/-- The function `strings.HasSuffix`. -/
def HasSuffix (s suf : Str) : Bool := suf.reverse.isPrefixOf s.reverse

/-- The function `strings.TrimSuffix`. -/
def TrimSuffix (s suf : Str) : Str :=
  if HasSuffix s suf then s.take (s.length - suf.length) else s

/-- The function `strings.Split` for a one-character separator: the pieces between
the occurrences of `sep`, one more piece than there are occurrences. -/
def Split (sep : Char) : Str → List Str
  | [] => [[]]
  | c :: cs =>
    if c = sep then [] :: Split sep cs
    else
      match Split sep cs with
      | [] => [[c]]
      | l :: ls => (c :: l) :: ls

/-- The scanning loop of `strings.Fields`; `acc` holds the field being read, reversed. -/
def fieldsLoop (acc : Str) : Str → List Str
  | [] => if acc.isEmpty then [] else [acc.reverse]
  | c :: cs =>
    if isSpace c then
      if acc.isEmpty then fieldsLoop [] cs else acc.reverse :: fieldsLoop [] cs
    else fieldsLoop (c :: acc) cs

/-- The function `strings.Fields`: the maximal runs of non-space characters. -/
def Fields (s : Str) : List Str := fieldsLoop [] s

/-- The digit loop of `strconv.Atoi`: the value of a run of ASCII digits, `none`
when a character is not a digit. -/
def parseDigits (acc : Nat) : Str → Option Nat
  | [] => some acc
  | c :: cs =>
    if 48 ≤ c.toNat ∧ c.toNat ≤ 57 then parseDigits (acc * 10 + (c.toNat - 48)) cs
    else none

/-- The function `strconv.Atoi` on a 64-bit platform: an optional sign followed by
at least one decimal digit, within the range of `int`; `none` stands for an error. -/
def Atoi (s : Str) : Option Int :=
  match s with
  | [] => none
  | c :: cs =>
    let neg := c = '-'
    let ds := if c = '-' ∨ c = '+' then cs else s
    if ds.isEmpty then none
    else
      match parseDigits 0 ds with
      | none => none
      | some n =>
        if neg then (if n ≤ 2 ^ 63 then some (-(n : Int)) else none)
        else (if n < 2 ^ 63 then some (n : Int) else none)

/-- The verb `%+d` followed by `%%` of `fmt.Sprintf`: sign, decimal digits, percent sign. -/
def fmtSignedPercent (d : Int) : Str :=
  (if d < 0 then '-' else '+') :: (Nat.toDigits 10 d.natAbs ++ ['%'])

/-! ## Data model -/

/-- The struct `App`. -/
structure App where
  ID : Str
  Name : Str
  Volume : Int
  DisplayVolume : Int
  deriving DecidableEq, Repr

/-- The zero value of `App`. -/
def App.zero : App := { ID := [], Name := [], Volume := 0, DisplayVolume := 0 }

/-- The struct `model`. -/
structure model where
  apps : List App
  selected : Int
  width : Int
  height : Int
  deriving DecidableEq, Repr

/-! ## Status parser -/

def sinkInputMarker : Str := "Sink Input #".toList
def applicationNameKey : Str := "application.name".toList
def mediaNameKey : Str := "media.name".toList
def volumeKey : Str := "Volume:".toList

/-- The function `extractValue`: the text after the first `=`, with the characters
`"` and space trimmed from both ends; empty when there is no `=`. -/
def extractValue (line : Str) : Str :=
  let idx := line.indexOf '='
  if idx < line.length then Trim (line.drop (idx + 1)) [Char.ofNat 34, ' ']
  else []

/-- The loop of `extractVolume` over the fields of the line. -/
def extractVolumeLoop : List Str → Int
  | [] => -1
  | p :: ps =>
    if HasSuffix p ['%'] then
      match Atoi (TrimSuffix p ['%']) with
      | some val => if val > 100 then 100 else if val < 0 then 0 else val
      | none => extractVolumeLoop ps
    else extractVolumeLoop ps

/-- The function `extractVolume`. -/
def extractVolume (line : Str) : Int := extractVolumeLoop (Fields line)

/-- The loop state of `getApps`: the streams appended so far and the open block. -/
structure ParseState where
  apps : List App
  current : App
  deriving DecidableEq, Repr

/-- The body of the line loop of `getApps`. -/
def getAppsStep (st : ParseState) (line : Str) : ParseState :=
  let line := TrimSpace line
  if HasPrefix line sinkInputMarker then
    { apps := if st.current.ID ≠ [] then st.apps ++ [st.current] else st.apps,
      current := { App.zero with ID := TrimPrefix line sinkInputMarker } }
  else if HasPrefix line applicationNameKey then
    { st with current := { st.current with Name := extractValue line } }
  else if HasPrefix line mediaNameKey then
    if st.current.Name = [] then
      { st with current := { st.current with Name := extractValue line } }
    else st
  else if HasPrefix line volumeKey then
    let vol := extractVolume line
    if vol ≥ 0 then
      { st with current := { st.current with Volume := if vol > 100 then 100 else vol } }
    else st
  else st

/-- The line loop of `getApps` with the append that follows it. -/
def getAppsLines (lines : List Str) : List App :=
  let st := lines.foldl getAppsStep { apps := [], current := App.zero }
  if st.current.ID ≠ [] then st.apps ++ [st.current] else st.apps

/-- The part of `getApps` after the external command: the status parser. -/
def parseStatus (out : Str) : List App :=
  getAppsLines (Split (Char.ofNat 10) out)

/-! ## The external daemon -/

/-- The two invocations of `pactl` made by the program, over a daemon state `σ`:
`pactl list sink-inputs` yields the text written to standard output, or `none` when
running the command fails; `pactl set-sink-input-volume id op` yields no result. -/
structure Daemon (σ : Type) where
  listSinkInputs : σ → Option Str × σ
  setSinkInputVolume : σ → Str → Str → σ

/-- The state of the outside world: the daemon, and the arguments `(id, op)` of every
`set-sink-input-volume` invocation made so far, oldest first. -/
structure World (σ : Type) where
  daemon : σ
  issued : List (Str × Str)

/-- The function `getApps`: an empty list when the command fails, the parsed output
otherwise. -/
def getApps {σ : Type} (D : Daemon σ) (w : World σ) : List App × World σ :=
  match D.listSinkInputs w.daemon with
  | (none, s) => ([], { w with daemon := s })
  | (some out, s) => (parseStatus out, { w with daemon := s })

/-! ## Volume controller -/

/-- The loop of `getAppVolume` over the streams read back. -/
def getAppVolumeLoop (id : Str) : List App → Int
  | [] => 0
  | a :: rest =>
    if a.ID = id then (if a.Volume > 100 then 100 else a.Volume)
    else getAppVolumeLoop id rest

/-- The function `getAppVolume`. -/
def getAppVolume {σ : Type} (D : Daemon σ) (w : World σ) (id : Str) : Int × World σ :=
  let r := getApps D w
  (getAppVolumeLoop id r.1, r.2)

/-- The target and the effective delta computed by `setVolume` from the volume
read back and the requested delta. -/
def effectiveDelta (current delta : Int) : Int :=
  let target := wrapInt (current + delta)
  let target := if target > 100 then 100 else if target < 0 then 0 else target
  wrapInt (target - current)

/-- The function `setVolume`. -/
def setVolume {σ : Type} (D : Daemon σ) (w : World σ) (id : Str) (delta : Int) : World σ :=
  let r := getAppVolume D w id
  let delta := effectiveDelta r.1 delta
  if delta = 0 then r.2
  else
    let op := fmtSignedPercent delta
    { daemon := D.setSinkInputVolume r.2.daemon id op, issued := r.2.issued ++ [(id, op)] }

/-! ## Mixer state -/

/-- The inner loop of `updateVolumes` for one entry of the model. -/
def updateVolumesEntry (systemApps : List App) (a : App) : App :=
  systemApps.foldl
    (fun (a sysApp : App) =>
      if a.ID = sysApp.ID then
        { a with Volume := if sysApp.Volume > 100 then (100 : Int) else sysApp.Volume }
      else a)
    a

/-- The function `updateVolumes`. -/
def updateVolumes {σ : Type} (D : Daemon σ) (w : World σ) (m : model) : model × World σ :=
  let r := getApps D w
  ({ m with apps := m.apps.map (updateVolumesEntry r.1) }, r.2)

/-- The function `initialModel`. -/
def initialModel {σ : Type} (D : Daemon σ) (w : World σ) : model × World σ :=
  let r := getApps D w
  ({ apps := r.1.map (fun a =>
        let v : Int := if a.Volume > 100 then 100 else a.Volume
        { a with Volume := v, DisplayVolume := v }),
     selected := 0, width := 0, height := 0 }, r.2)

/-- The messages delivered to `Update`: a resize, a key press (given by the text of
`msg.String()`), a timer tick, or any other message of the framework. -/
inductive Msg where
  | windowSize (width height : Int)
  | key (name : Str)
  | tick
  | other
  deriving DecidableEq, Repr

/-- The commands returned by `Update`: `nil`, `tea.Quit`, or the timer of `tick()`. -/
inductive Cmd where
  | none
  | quit
  | tick
  deriving DecidableEq, Repr

/-- The body of the loop of the `TickMsg` case for one stream. The increment is made
below the Volume and the decrement above it, so neither leaves the range of `int`. -/
def tickApp (a : App) : App :=
  if a.DisplayVolume < a.Volume then { a with DisplayVolume := a.DisplayVolume + 1 }
  else if a.DisplayVolume > a.Volume then { a with DisplayVolume := a.DisplayVolume - 1 }
  else a

/-- The element `m.apps[m.selected]`; `none` when the index is out of range (a
run-time panic). -/
def selectedApp (m : model) : Option App :=
  if 0 ≤ m.selected then m.apps.get? m.selected.toNat else none

/-- The cases "right" and "left" of `Update`, for the delta `+2` or `-2`. -/
def adjustSelected {σ : Type} (D : Daemon σ) (w : World σ) (m : model) (delta : Int) :
    Option (model × Cmd × World σ) :=
  if m.apps.length > 0 then
    match selectedApp m with
    | Option.none => Option.none
    | some a =>
      let w1 := setVolume D w a.ID delta
      let r := updateVolumes D w1 m
      some (r.1, Cmd.none, r.2)
  else some (m, Cmd.none, w)

/-- The method `Update`: the new model, the command returned and the world after
the call; `none` when the call panics. -/
def Update {σ : Type} (D : Daemon σ) (w : World σ) (m : model) (msg : Msg) :
    Option (model × Cmd × World σ) :=
  match msg with
  | Msg.windowSize width height => some ({ m with width := width, height := height }, Cmd.none, w)
  | Msg.key name =>
    if name = "q".toList ∨ name = "ctrl+c".toList then some (m, Cmd.quit, w)
    else if name = "up".toList then
      some (if m.selected > 0 then { m with selected := m.selected - 1 } else m, Cmd.none, w)
    else if name = "down".toList then
      some (if m.selected < (m.apps.length : Int) - 1 then { m with selected := m.selected + 1 }
            else m, Cmd.none, w)
    else if name = "right".toList then adjustSelected D w m 2
    else if name = "left".toList then adjustSelected D w m (-2)
    else some (m, Cmd.none, w)
  | Msg.tick =>
    let changed := m.apps.any (fun a => a.DisplayVolume < a.Volume ∨ a.DisplayVolume > a.Volume)
    some ({ m with apps := m.apps.map tickApp }, if changed then Cmd.tick else Cmd.tick, w)
  | Msg.other => some (m, Cmd.none, w)

/-- The event loop of the framework: the messages are handed to `Update` one after
the other, until one of them returns `tea.Quit` or panics. -/
def run {σ : Type} (D : Daemon σ) : World σ → model → List Msg → Option (model × World σ)
  | w, m, [] => some (m, w)
  | w, m, msg :: rest =>
    match Update D w m msg with
    | Option.none => Option.none
    | some (m1, Cmd.quit, w1) => some (m1, w1)
    | some (m1, _, w1) => run D w1 m1 rest

/-! ## Renderer -/

/-- The UTF-8 encoding of a code point, as the list of its bytes. -/
def utf8EncodeChar (c : Char) : List Nat :=
  let n := c.toNat
  if n < 128 then [n]
  else if n < 2048 then [192 + n / 64, 128 + n % 64]
  else if n < 65536 then [224 + n / 4096, 128 + n / 64 % 64, 128 + n % 64]
  else [240 + n / 262144, 128 + n / 4096 % 64, 128 + n / 64 % 64, 128 + n % 64]

/-- The bytes of a Go string; `len` and slicing of a string work on these. -/
def utf8Encode (s : Str) : List Nat := s.flatMap utf8EncodeChar

/-- The memory of the machine as an allocation sees it: `mem n` tells whether the
system has `n` bytes to give when the program asks for them. -/
abbrev Memory := Nat → Bool

/-- Whether the runtime allocates a string of `n` bytes: nothing is asked for an empty
string; the allocator of a 64-bit platform refuses more than 2^48 bytes (`makeslice:
len out of range`) whatever the machine; otherwise the system must have the bytes. -/
def allocates (mem : Memory) (n : Nat) : Bool :=
  decide (n = 0) || (decide (n ≤ 2 ^ 48) && mem n)

/-- The function `strings.Repeat`; `none` stands for its failures: the panics on a
negative count and on a result whose length in bytes is out of the range of `int`,
and a result that cannot be allocated. -/
def Repeat (mem : Memory) (s : Str) (count : Int) : Option Str :=
  if count < 0 then none
  else if ((utf8Encode s).length : Int) * count ≥ 2 ^ 63 then none
  else if allocates mem ((utf8Encode s).length * count.toNat) then
    some (List.replicate count.toNat s).flatten
  else none

/-- The concatenation of strings by `+`, in one allocation; `none` when the result
cannot be allocated. -/
def concatStrings (mem : Memory) (parts : List Str) : Option Str :=
  if allocates mem (parts.map (fun p => (utf8Encode p).length)).sum then some parts.flatten
  else none

/-- The function `getVolumeBar`, run on a machine with the memory `mem`; `none` when a
call of `strings.Repeat` or a concatenation fails. The quotient of Go's `/` is
truncated toward zero. -/
def getVolumeBar (mem : Memory) (v totalWidth : Int) : Option Str :=
  let padding : Int := 25
  let barLength := wrapInt (totalWidth - padding)
  let barLength := if barLength < 10 then 10 else barLength
  let filled := Int.tdiv (wrapInt (v * barLength)) 100
  match Repeat mem [Char.ofNat 9617] filled with
  | none => none
  | some full =>
    match Repeat mem [' '] (wrapInt (barLength - filled)) with
    | none => none
    | some blank =>
      match concatStrings mem [full, blank] with
      | none => none
      | some bar => concatStrings mem [['['], bar, [']']]

/-- The name shown in a row by `View`, as bytes: `len(name)` and `name[:maxNameLen-1]`
count and cut the bytes of the name, and the ellipsis is appended to the cut. -/
def viewName (name : Str) : List Nat :=
  let maxNameLen := 15
  if (utf8Encode name).length > maxNameLen then
    (utf8Encode name).take (maxNameLen - 1) ++ utf8Encode [Char.ofNat 8230]
  else utf8Encode name

/-! ## Auxiliary notions used to state the properties -/

/-- A line opens a block when its trimmed form starts with the marker. -/
def isBlockStart (line : Str) : Bool := HasPrefix (TrimSpace line) sinkInputMarker

/-- A block of status text: the line that opens it and the lines that follow it up
to the next block or the end of the text. -/
structure Block where
  header : Str
  attrs : List Str
  deriving DecidableEq, Repr

/-- The text after the marker on the trimmed opening line of a block. -/
def Block.id (b : Block) : Str := TrimPrefix (TrimSpace b.header) sinkInputMarker

/-- The lines of a block. -/
def Block.lines (b : Block) : List Str := b.header :: b.attrs

/-- A block is well formed when its first line opens a block, none of its other
lines opens a block, and no line contains a line break. -/
def Block.WellFormed (b : Block) : Prop :=
  isBlockStart b.header = true ∧
  (∀ l ∈ b.attrs, isBlockStart l = false) ∧
  (∀ l ∈ b.lines, Char.ofNat 10 ∉ l)

instance (b : Block) : Decidable b.WellFormed := by
  unfold Block.WellFormed
  infer_instance

/-- The open block of the parser after the lines of the block `b` have been read. -/
def Block.stream (b : Block) : App :=
  (b.attrs.foldl getAppsStep { apps := [], current := { App.zero with ID := b.id } }).current

/-- The append made by `getApps` at a block start and after the last line. -/
def ParseState.flush (st : ParseState) : List App :=
  if st.current.ID ≠ [] then st.apps ++ [st.current] else st.apps

/-- The loop invariant behind the volume range: every stream appended so far and the
open block have a volume between 0 and 100. -/
def ParseState.VolumesInRange (st : ParseState) : Prop :=
  (∀ a ∈ st.apps, 0 ≤ a.Volume ∧ a.Volume ≤ 100) ∧
  (0 ≤ st.current.Volume ∧ st.current.Volume ≤ 100)

/-- A line is an application-name line when its trimmed form starts with that key. -/
def isApplicationNameLine (line : Str) : Bool := HasPrefix (TrimSpace line) applicationNameKey

/-- A line is a media-name line when its trimmed form starts with that key. -/
def isMediaNameLine (line : Str) : Bool := HasPrefix (TrimSpace line) mediaNameKey

/-- A line is a volume line when its trimmed form starts with that key. -/
def isVolumeLine (line : Str) : Bool := HasPrefix (TrimSpace line) volumeKey

/-- The line states the percent `n`: the first of its white-space separated tokens
that ends in a percent sign is, without that sign, a numeral that `Atoi` reads as `n`. -/
def StatesPercent (line : Str) (n : Int) : Prop :=
  ∃ pre tok post, Fields (TrimSpace line) = pre ++ (tok ++ ['%']) :: post ∧
    (∀ p ∈ pre, HasSuffix p ['%'] = false) ∧ Atoi tok = some n

/-- The status text made of the given blocks: their lines joined by line breaks. -/
def blocksText (bs : List Block) : Str :=
  [Char.ofNat 10].intercalate (bs.flatMap Block.lines)

/-- The value `x` clamped to the interval from 0 to 100. -/
def clampPercent (x : Int) : Int := max 0 (min x 100)

/-- A status text with two blocks, of volumes 40% and 75%. -/
def exampleStatus : Str :=
  ("Sink Input #5\n\tDriver: protocol-native.c\n" ++
   "\tVolume: front-left: 26214 /  40% / -23.88 dB,   front-right: 26214 /  40% / -23.88 dB\n" ++
   "\t        balance 0.00\n" ++
   "Sink Input #12\n\tDriver: protocol-native.c\n" ++
   "\tVolume: mono: 49152 /  75% / -7.50 dB\n").toList

/-- The blocks of `exampleStatus`. -/
def exampleBlocks : List Block :=
  [ { header := "Sink Input #5".toList,
      attrs := ["\tDriver: protocol-native.c".toList,
        "\tVolume: front-left: 26214 /  40% / -23.88 dB,   front-right: 26214 /  40% / -23.88 dB".toList,
        "\t        balance 0.00".toList] },
    { header := "Sink Input #12".toList,
      attrs := ["\tDriver: protocol-native.c".toList,
        "\tVolume: mono: 49152 /  75% / -7.50 dB".toList, []] } ]

/-- Two blocks that carry both names, in the two possible orders. -/
def namedBlocks : List Block :=
  [ { header := "Sink Input #5".toList,
      attrs := ["\tmedia.name = \"Playback\"".toList,
        "\tapplication.name = \"Firefox\"".toList] },
    { header := "Sink Input #12".toList,
      attrs := ["\tapplication.name = \"mpv\"".toList, "\tmedia.name = \"song\"".toList] } ]

/-- A block whose application name is empty and is followed by a media name. -/
def shadowedNameBlock : Block :=
  { header := "Sink Input #1".toList,
    attrs := ["\tapplication.name = \"\"".toList, "\tmedia.name = \"foo\"".toList] }

/-- The model made by `initialModel` from `exampleStatus`. -/
def exampleModel : model :=
  { apps := [⟨"5".toList, [], 40, 40⟩, ⟨"12".toList, [], 75, 75⟩],
    selected := 0, width := 0, height := 0 }

/-- A status text with the single stream "7", at 99%. -/
def status99 : Str :=
  "Sink Input #7\n\tVolume: mono: 64881 /  99% / -0.26 dB\n".toList

/-- A status text with the single stream "7", at 100%. -/
def status100 : Str :=
  "Sink Input #7\n\tVolume: mono: 65536 / 100% / 0.00 dB\n".toList

/-- A status text that reports the id 5 twice, at 40% and then at 60%. -/
def duplicateStatus : Str :=
  "Sink Input #5\n\tVolume: mono: 26214 /  40%\nSink Input #5\n\tVolume: mono: 39322 /  60%\n".toList

/-- The text after the marker on a trimmed line. -/
def lineId (line : Str) : Str := TrimPrefix (TrimSpace line) sinkInputMarker

/-- A line opens a stream when it opens a block and text follows the marker. -/
def opensStream (line : Str) : Bool := isBlockStart line && decide (lineId line ≠ [])

/-- The characters trimmed by `extractValue`: the double quote and the space. -/
def valueCutset : Str := [Char.ofNat 34, ' ']

/-- A volume line whose first token ending in a percent sign is not a number. -/
def mixedVolumeLine : Str := "\tVolume: front-left: n/a% /  55% / -15.58 dB".toList

/-- An application-name line with a tab between the equals sign and the value. -/
def tabbedNameLine : Str := "application.name =\t\"Firefox\"".toList

/-- A media-name line whose value starts with a space and ends with a double quote. -/
def quotedNameLine : Str := "media.name = \" Song \"Live\"\"".toList

/-- A status text with a line before the first block, a block without id and a block
with the id 7. -/
def strayStatus : Str :=
  "x = 1\nSink Input #\nVolume: 30%\nSink Input #7\nVolume: 20%".toList

/-- The blocks of `strayStatus`. -/
def strayBlocks : List Block :=
  [ { header := "Sink Input #".toList, attrs := ["Volume: 30%".toList] },
    { header := "Sink Input #7".toList, attrs := ["Volume: 20%".toList] } ]

/-- The state of a daemon that keeps one volume, in percent, per stream id. -/
abbrev Store := List (Str × Nat)

/-- The block reported for a stored stream: its id, and its volume on a volume line. -/
def storeBlock (e : Str × Nat) : Block :=
  { header := sinkInputMarker ++ e.1,
    attrs := [Char.ofNat 9 :: (volumeKey ++ ' ' :: (Nat.toDigits 10 e.2 ++ ['%']))] }

/-- The status text reported for a store. -/
def storeStatus (s : Store) : Str := blocksText (s.map storeBlock)

/-- The volume after a command: an argument with a sign followed by a number and a
percent sign is a relative change, applied exactly (a result below zero is stored as
zero); a number and a percent sign without a sign is the new volume. -/
def applyVolumeOp (v : Nat) (op : Str) : Nat :=
  if HasSuffix op ['%'] then
    match Atoi (TrimSuffix op ['%']) with
    | none => v
    | some d => if HasPrefix op ['+'] ∨ HasPrefix op ['-'] then ((v : Int) + d).toNat else d.toNat
  else v

/-- An idealised `pactl`: a daemon that keeps one volume per stream id, applies every
command to the stream it names and reports its volumes in its status text. -/
def storeDaemon : Daemon Store :=
  { listSinkInputs := fun s => (some (storeStatus s), s),
    setSinkInputVolume := fun s id op =>
      s.map (fun e => if e.1 = id then (e.1, applyVolumeOp e.2 op) else e) }

/-- The ids of a store can be reported when none is empty or contains white space. -/
def Store.Valid (s : Store) : Prop :=
  ∀ e ∈ s, e.1 ≠ [] ∧ ∀ ch ∈ e.1, isSpace ch = false

/-- The store with the stream 5 at 40% and the stream 12 at 75%. -/
def exampleStore : Store := [("5".toList, 40), ("12".toList, 75)]

/-- A daemon that always reports the same status text and ignores every command. -/
def constDaemon (out : Str) : Daemon Unit :=
  { listSinkInputs := fun s => (some out, s), setSinkInputVolume := fun s _ _ => s }

/-! ## Properties of the status parser -/

theorem foldl_invariant {α β : Type} (P : α → Prop) (f : α → β → α)
    (hf : ∀ a b, P a → P (f a b)) (l : List β) (a : α) (ha : P a) : P (l.foldl f a) := by
  induction l generalizing a with
  | nil => simpa using ha
  | cons b l ih => exact ih (f a b) (hf a b ha)

theorem getAppsStep_volumesInRange (st : ParseState) (line : Str)
    (h : st.VolumesInRange) : (getAppsStep st line).VolumesInRange := by
  obtain ⟨happs, hcur⟩ := h
  unfold getAppsStep
  simp only
  split_ifs with h1 h2 h3 h4 h5 h6 h7
  · refine ⟨?_, by simp [App.zero]⟩
    intro a ha
    rcases List.mem_append.mp ha with ha | ha
    · exact happs a ha
    · rw [List.mem_singleton.mp ha]; exact hcur
  · exact ⟨happs, by simp [App.zero]⟩
  all_goals first
    | exact ⟨happs, hcur⟩
    | (refine ⟨happs, ?_⟩; simp only; omega)

theorem getAppsLines_volume_range (lines : List Str) :
    ∀ a ∈ getAppsLines lines, 0 ≤ a.Volume ∧ a.Volume ≤ 100 := by
  have hinv : (lines.foldl getAppsStep { apps := [], current := App.zero }).VolumesInRange :=
    foldl_invariant ParseState.VolumesInRange getAppsStep getAppsStep_volumesInRange lines _
      ⟨by simp, by simp [App.zero]⟩
  intro a ha
  unfold getAppsLines at ha
  simp only at ha
  split_ifs at ha with h1
  · rcases List.mem_append.mp ha with ha | ha
    · exact hinv.1 a ha
    · rw [List.mem_singleton.mp ha]; exact hinv.2
  · exact hinv.1 a ha

/-- C1: for every raw status text, every stream returned by the status parser has a
volume between 0 and 100. -/
theorem parseStatus_volume_range (text : Str) (a : App) (ha : a ∈ parseStatus text) :
    0 ≤ a.Volume ∧ a.Volume ≤ 100 :=
  getAppsLines_volume_range _ a ha


/-! ### Splitting a text into lines -/

theorem Split_ne_nil (sep : Char) (s : Str) : Split sep s ≠ [] := by
  cases s with
  | nil => simp [Split]
  | cons c cs =>
    unfold Split
    split_ifs
    · simp
    · split <;> simp

theorem Split_of_not_mem (sep : Char) (l : Str) (h : sep ∉ l) : Split sep l = [l] := by
  induction l with
  | nil => rfl
  | cons c cs ih =>
    have hc : c ≠ sep := fun e => h (by simp [e])
    have hcs : sep ∉ cs := fun e => h (by simp [e])
    simp [Split, hc, ih hcs]

theorem Split_append_sep (sep : Char) (l r : Str) (h : sep ∉ l) :
    Split sep (l ++ sep :: r) = l :: Split sep r := by
  induction l with
  | nil => simp [Split]
  | cons c cs ih =>
    have hc : c ≠ sep := fun e => h (by simp [e])
    have hcs : sep ∉ cs := fun e => h (by simp [e])
    simp [Split, hc, ih hcs]

theorem Split_intercalate (sep : Char) (l : Str) (ls : List Str)
    (h : ∀ x ∈ l :: ls, sep ∉ x) : Split sep ([sep].intercalate (l :: ls)) = l :: ls := by
  induction ls generalizing l with
  | nil => simpa [List.intercalate] using Split_of_not_mem sep l (h l (by simp))
  | cons l2 ls ih =>
    have e : [sep].intercalate (l :: l2 :: ls) = l ++ sep :: [sep].intercalate (l2 :: ls) := by
      simp [List.intercalate, List.intersperse]
    rw [e, Split_append_sep sep l _ (h l (by simp)), ih l2 (fun x hx => h x (by simp [hx]))]
    

/-! ### Reading a block -/

theorem getAppsStep_of_not_start (st : ParseState) (l : Str) (h : isBlockStart l = false) :
    getAppsStep st l =
      { apps := st.apps, current := (getAppsStep { apps := [], current := st.current } l).current } := by
  unfold isBlockStart at h
  unfold getAppsStep
  simp only [h, Bool.false_eq_true, if_false]
  split_ifs <;> rfl

theorem foldl_getAppsStep_attrs (attrs : List Str) (st : ParseState)
    (h : ∀ l ∈ attrs, isBlockStart l = false) :
    attrs.foldl getAppsStep st =
      { apps := st.apps,
        current := (attrs.foldl getAppsStep { apps := [], current := st.current }).current } := by
  induction attrs generalizing st with
  | nil => rfl
  | cons l ls ih =>
    have hl := h l (by simp)
    have hls : ∀ x ∈ ls, isBlockStart x = false := fun x hx => h x (by simp [hx])
    simp only [List.foldl_cons]
    rw [ih _ hls, ih (getAppsStep { apps := [], current := st.current } l) hls,
      getAppsStep_of_not_start st l hl]

theorem getAppsStep_ID_of_not_start (st : ParseState) (l : Str) (h : isBlockStart l = false) :
    (getAppsStep st l).current.ID = st.current.ID := by
  unfold isBlockStart at h
  unfold getAppsStep
  simp only [h, Bool.false_eq_true, if_false]
  split_ifs <;> rfl

theorem foldl_getAppsStep_ID (attrs : List Str) (st : ParseState)
    (h : ∀ l ∈ attrs, isBlockStart l = false) :
    (attrs.foldl getAppsStep st).current.ID = st.current.ID := by
  induction attrs generalizing st with
  | nil => rfl
  | cons l ls ih =>
    simp only [List.foldl_cons]
    rw [ih _ (fun x hx => h x (by simp [hx])), getAppsStep_ID_of_not_start st l (h l (by simp))]

theorem Block.stream_ID (b : Block) (h : b.WellFormed) : b.stream.ID = b.id :=
  foldl_getAppsStep_ID b.attrs _ h.2.1

theorem getAppsStep_header (st : ParseState) (b : Block) (h : b.WellFormed) :
    getAppsStep st b.header =
      { apps := st.flush, current := { App.zero with ID := b.id } } := by
  have h1 := h.1
  unfold isBlockStart at h1
  unfold getAppsStep ParseState.flush Block.id
  simp only [h1, if_true]

theorem foldl_getAppsStep_block (st : ParseState) (b : Block) (h : b.WellFormed) :
    b.lines.foldl getAppsStep st = { apps := st.flush, current := b.stream } := by
  unfold Block.lines
  simp only [List.foldl_cons]
  rw [getAppsStep_header st b h, foldl_getAppsStep_attrs b.attrs _ h.2.1]
  rfl

/-- Streams of the blocks that are kept by the parser: those with a non-empty id. -/
theorem flush_foldl_blocks (bs : List Block) (st : ParseState)
    (h : ∀ b ∈ bs, b.WellFormed) :
    ((bs.flatMap Block.lines).foldl getAppsStep st).flush =
      st.flush ++ (bs.filter (fun b => decide (b.id ≠ []))).map Block.stream := by
  induction bs generalizing st with
  | nil => simp
  | cons b bs ih =>
    have hb := h b (by simp)
    simp only [List.flatMap_cons, List.foldl_append]
    rw [foldl_getAppsStep_block st b hb, ih _ (fun x hx => h x (by simp [hx]))]
    by_cases hid : b.id = []
    · have : b.stream.ID = [] := by rw [Block.stream_ID b hb]; exact hid
      simp [ParseState.flush, this, hid]
    · have : b.stream.ID ≠ [] := by rw [Block.stream_ID b hb]; exact hid
      simp [ParseState.flush, this, hid]

theorem getAppsLines_blocks (bs : List Block) (h : ∀ b ∈ bs, b.WellFormed) :
    getAppsLines (bs.flatMap Block.lines) =
      (bs.filter (fun b => decide (b.id ≠ []))).map Block.stream := by
  have := flush_foldl_blocks bs { apps := [], current := App.zero } h
  simpa [getAppsLines, ParseState.flush, App.zero] using this

theorem getAppsLines_nil_line : getAppsLines [[]] = [] := by decide

theorem parseStatus_blocksText (bs : List Block) (h : ∀ b ∈ bs, b.WellFormed) :
    parseStatus (blocksText bs) = (bs.filter (fun b => decide (b.id ≠ []))).map Block.stream := by
  unfold parseStatus blocksText
  cases hls : bs.flatMap Block.lines with
  | nil =>
    cases bs with
    | nil => decide
    | cons b bs => simp [Block.lines] at hls
  | cons l ls =>
    rw [Split_intercalate]
    · rw [← hls]; exact getAppsLines_blocks bs h
    · intro x hx
      rw [← hls] at hx
      obtain ⟨b, hb, hxb⟩ := List.mem_flatMap.mp hx
      exact (h b hb).2.2 x hxb

theorem parseStatus_blocksText_of_ids (bs : List Block)
    (h : ∀ b ∈ bs, b.WellFormed ∧ b.id ≠ []) :
    parseStatus (blocksText bs) = bs.map Block.stream := by
  rw [parseStatus_blocksText bs (fun b hb => (h b hb).1)]
  congr 1
  rw [List.filter_eq_self]
  intro b hb
  simpa using (h b hb).2


/-! ### Attribute lines -/

theorem HasPrefix_volumeKey_exclusive (s : Str) (h : HasPrefix s volumeKey = true) :
    HasPrefix s sinkInputMarker = false ∧ HasPrefix s applicationNameKey = false ∧
      HasPrefix s mediaNameKey = false := by
  cases s with
  | nil => simp [HasPrefix, volumeKey] at h
  | cons c cs =>
    have hc : c = 'V' := by
      simp [HasPrefix, volumeKey] at h
      exact h.1.symm
    subst hc
    refine ⟨?_, ?_, ?_⟩ <;> rfl

theorem HasPrefix_applicationNameKey_exclusive (s : Str)
    (h : HasPrefix s applicationNameKey = true) : HasPrefix s sinkInputMarker = false := by
  cases s with
  | nil => simp [HasPrefix, applicationNameKey] at h
  | cons c cs =>
    have hc : c = 'a' := by
      simp [HasPrefix, applicationNameKey] at h
      exact h.1.symm
    subst hc
    rfl

theorem HasSuffix_append_percent (tok : Str) : HasSuffix (tok ++ ['%']) ['%'] = true := by
  simp [HasSuffix]

theorem TrimSuffix_append_percent (tok : Str) : TrimSuffix (tok ++ ['%']) ['%'] = tok := by
  simp [TrimSuffix, HasSuffix]

theorem extractVolumeLoop_first_percent (pre post : List Str) (tok : Str) (n : Int)
    (hpre : ∀ p ∈ pre, HasSuffix p ['%'] = false) (htok : Atoi tok = some n) :
    extractVolumeLoop (pre ++ (tok ++ ['%']) :: post) = clampPercent n := by
  induction pre with
  | nil =>
    simp only [List.nil_append, extractVolumeLoop, HasSuffix_append_percent,
      TrimSuffix_append_percent, htok, if_true]
    simp only [clampPercent, max_def, min_def]
    split_ifs <;> omega
  | cons p ps ih =>
    have hp := hpre p (by simp)
    simp only [List.cons_append, extractVolumeLoop, hp, Bool.false_eq_true, if_false]
    exact ih (fun x hx => hpre x (by simp [hx]))

theorem clampPercent_range (n : Int) : 0 ≤ clampPercent n ∧ clampPercent n ≤ 100 := by
  simp only [clampPercent, max_def, min_def]
  split_ifs <;> constructor <;> omega

theorem getAppsStep_volume_line (st : ParseState) (l : Str) (n : Int)
    (hv : isVolumeLine l = true) (hn : StatesPercent l n) :
    (getAppsStep st l).current.Volume = clampPercent n := by
  obtain ⟨pre, tok, post, hf, hpre, htok⟩ := hn
  unfold isVolumeLine at hv
  obtain ⟨h1, h2, h3⟩ := HasPrefix_volumeKey_exclusive _ hv
  have hr := clampPercent_range n
  have he : extractVolume (TrimSpace l) = clampPercent n := by
    unfold extractVolume
    rw [hf]
    exact extractVolumeLoop_first_percent pre post tok n hpre htok
  unfold getAppsStep
  simp only [h1, h2, h3, hv, Bool.false_eq_true, if_false, if_true, he]
  split_ifs <;> (try dsimp only) <;> omega

theorem getAppsStep_volume_of_other (st : ParseState) (l : Str)
    (hs : isBlockStart l = false) (hv : isVolumeLine l = false) :
    (getAppsStep st l).current.Volume = st.current.Volume := by
  unfold isBlockStart at hs
  unfold isVolumeLine at hv
  unfold getAppsStep
  simp only [hs, hv, Bool.false_eq_true, if_false]
  split_ifs <;> rfl

theorem foldl_getAppsStep_volume_of_other (ls : List Str) (st : ParseState)
    (hs : ∀ l ∈ ls, isBlockStart l = false) (hv : ∀ l ∈ ls, isVolumeLine l = false) :
    (ls.foldl getAppsStep st).current.Volume = st.current.Volume := by
  induction ls generalizing st with
  | nil => rfl
  | cons l ls ih =>
    simp only [List.foldl_cons]
    rw [ih _ (fun x hx => hs x (by simp [hx])) (fun x hx => hv x (by simp [hx])),
      getAppsStep_volume_of_other st l (hs l (by simp)) (hv l (by simp))]

theorem Block.stream_volume (b : Block) (h : b.WellFormed) (front rest : List Str)
    (vl : Str) (n : Int) (hattrs : b.attrs = front ++ vl :: rest)
    (hv : isVolumeLine vl = true) (hn : StatesPercent vl n)
    (hrest : ∀ l ∈ rest, isVolumeLine l = false) : b.stream.Volume = clampPercent n := by
  have hns := h.2.1
  rw [hattrs] at hns
  unfold Block.stream
  rw [hattrs, List.foldl_append, List.foldl_cons,
    foldl_getAppsStep_volume_of_other rest _ (fun x hx => hns x (by simp [hx])) hrest]
  exact getAppsStep_volume_line _ vl n hv hn

theorem getAppsStep_name_line (st : ParseState) (l : Str)
    (ha : isApplicationNameLine l = true) :
    (getAppsStep st l).current.Name = extractValue (TrimSpace l) := by
  unfold isApplicationNameLine at ha
  have h1 := HasPrefix_applicationNameKey_exclusive _ ha
  unfold getAppsStep
  simp only [h1, ha, Bool.false_eq_true, if_false, if_true]

theorem getAppsStep_name_of_other (st : ParseState) (l : Str)
    (hs : isBlockStart l = false) (ha : isApplicationNameLine l = false)
    (hm : st.current.Name ≠ [] ∨ isMediaNameLine l = false) :
    (getAppsStep st l).current.Name = st.current.Name := by
  unfold isBlockStart at hs
  unfold isApplicationNameLine at ha
  unfold isMediaNameLine at hm
  unfold getAppsStep
  simp only [hs, ha, Bool.false_eq_true, if_false]
  rcases hm with hm | hm
  · simp only [hm, if_false]
    split_ifs <;> rfl
  · simp only [hm, Bool.false_eq_true, if_false]
    split_ifs <;> rfl

theorem foldl_getAppsStep_name_of_other (ls : List Str) (st : ParseState)
    (hs : ∀ l ∈ ls, isBlockStart l = false) (ha : ∀ l ∈ ls, isApplicationNameLine l = false)
    (hm : st.current.Name ≠ [] ∨ ∀ l ∈ ls, isMediaNameLine l = false) :
    (ls.foldl getAppsStep st).current.Name = st.current.Name := by
  induction ls generalizing st with
  | nil => rfl
  | cons l ls ih =>
    have e := getAppsStep_name_of_other st l (hs l (by simp)) (ha l (by simp))
      (hm.imp id (fun h => h l (by simp)))
    simp only [List.foldl_cons]
    rw [ih _ (fun x hx => hs x (by simp [hx])) (fun x hx => ha x (by simp [hx]))
      (by rw [e]; exact hm.imp id (fun h x hx => h x (by simp [hx]))), e]

theorem Block.stream_name (b : Block) (h : b.WellFormed) (front rest : List Str)
    (al : Str) (hattrs : b.attrs = front ++ al :: rest)
    (ha : isApplicationNameLine al = true)
    (hrest : ∀ l ∈ rest, isApplicationNameLine l = false)
    (hm : extractValue (TrimSpace al) ≠ [] ∨ ∀ l ∈ rest, isMediaNameLine l = false) :
    b.stream.Name = extractValue (TrimSpace al) := by
  have hns := h.2.1
  rw [hattrs] at hns
  unfold Block.stream
  rw [hattrs, List.foldl_append, List.foldl_cons,
    foldl_getAppsStep_name_of_other rest _ (fun x hx => hns x (by simp [hx])) hrest
      (by rw [getAppsStep_name_line _ al ha]; exact hm)]
  exact getAppsStep_name_line _ al ha

theorem HasPrefix_mediaNameKey_exclusive (s : Str) (h : HasPrefix s mediaNameKey = true) :
    HasPrefix s sinkInputMarker = false ∧ HasPrefix s applicationNameKey = false := by
  cases s with
  | nil => simp [HasPrefix, mediaNameKey] at h
  | cons c cs =>
    have hc : c = 'm' := by
      simp [HasPrefix, mediaNameKey] at h
      exact h.1.symm
    subst hc
    constructor <;> rfl

theorem getAppsStep_media_line (st : ParseState) (l : Str) (hm : isMediaNameLine l = true)
    (hn : st.current.Name = []) :
    (getAppsStep st l).current.Name = extractValue (TrimSpace l) := by
  unfold isMediaNameLine at hm
  obtain ⟨h1, h2⟩ := HasPrefix_mediaNameKey_exclusive _ hm
  unfold getAppsStep
  simp only [h1, h2, hm, hn, Bool.false_eq_true, if_false, if_true]

theorem getAppsStep_name_empty (st : ParseState) (l : Str)
    (hs : isBlockStart l = false) (ha : isApplicationNameLine l = false)
    (hm : isMediaNameLine l = true → extractValue (TrimSpace l) = [])
    (hn : st.current.Name = []) : (getAppsStep st l).current.Name = [] := by
  cases hml : isMediaNameLine l with
  | true => rw [getAppsStep_media_line st l hml hn]; exact hm hml
  | false => rw [getAppsStep_name_of_other st l hs ha (Or.inr hml)]; exact hn

theorem foldl_getAppsStep_name_empty (ls : List Str) (st : ParseState)
    (hs : ∀ l ∈ ls, isBlockStart l = false) (ha : ∀ l ∈ ls, isApplicationNameLine l = false)
    (hm : ∀ l ∈ ls, isMediaNameLine l = true → extractValue (TrimSpace l) = [])
    (hn : st.current.Name = []) : (ls.foldl getAppsStep st).current.Name = [] := by
  induction ls generalizing st with
  | nil => exact hn
  | cons l ls ih =>
    simp only [List.foldl_cons]
    exact ih _ (fun x hx => hs x (by simp [hx])) (fun x hx => ha x (by simp [hx]))
      (fun x hx => hm x (by simp [hx]))
      (getAppsStep_name_empty st l (hs l (by simp)) (ha l (by simp)) (hm l (by simp)) hn)

/-- The name of a block after its last application-name line, when the value of that
line is not empty or every media-name line after it has an empty value. -/
theorem Block.stream_name_kept (b : Block) (h : b.WellFormed) (front rest : List Str)
    (al : Str) (hattrs : b.attrs = front ++ al :: rest)
    (ha : isApplicationNameLine al = true)
    (hrest : ∀ l ∈ rest, isApplicationNameLine l = false)
    (hm : extractValue (TrimSpace al) ≠ [] ∨
      ∀ l ∈ rest, isMediaNameLine l = true → extractValue (TrimSpace l) = []) :
    b.stream.Name = extractValue (TrimSpace al) := by
  have hns := h.2.1
  rw [hattrs] at hns
  have hrs : ∀ x ∈ rest, isBlockStart x = false := fun x hx => hns x (by simp [hx])
  by_cases hv : extractValue (TrimSpace al) = []
  · have hm2 := hm.resolve_left (fun hne => hne hv)
    unfold Block.stream
    rw [hattrs, List.foldl_append, List.foldl_cons,
      foldl_getAppsStep_name_empty rest _ hrs hrest hm2
        (by rw [getAppsStep_name_line _ al ha]; exact hv), hv]
  · unfold Block.stream
    rw [hattrs, List.foldl_append, List.foldl_cons,
      foldl_getAppsStep_name_of_other rest _ hrs hrest
        (Or.inl (by rw [getAppsStep_name_line _ al ha]; exact hv))]
    exact getAppsStep_name_line _ al ha

/-- The name of a block whose last application-name line has an empty value: the value
of the first media-name line after it whose value is not empty. -/
theorem Block.stream_name_media (b : Block) (h : b.WellFormed) (front mid tail : List Str)
    (al ml : Str) (hattrs : b.attrs = front ++ al :: (mid ++ ml :: tail))
    (ha : isApplicationNameLine al = true) (hv : extractValue (TrimSpace al) = [])
    (hrest : ∀ l ∈ mid ++ ml :: tail, isApplicationNameLine l = false)
    (hmid : ∀ l ∈ mid, isMediaNameLine l = true → extractValue (TrimSpace l) = [])
    (hml : isMediaNameLine ml = true) (hmv : extractValue (TrimSpace ml) ≠ []) :
    b.stream.Name = extractValue (TrimSpace ml) := by
  have hns := h.2.1
  rw [hattrs] at hns
  have hmids : ∀ x ∈ mid, isBlockStart x = false := fun x hx => hns x (by simp [hx])
  have htails : ∀ x ∈ tail, isBlockStart x = false := fun x hx => hns x (by simp [hx])
  have hmida : ∀ x ∈ mid, isApplicationNameLine x = false := fun x hx => hrest x (by simp [hx])
  have htaila : ∀ x ∈ tail, isApplicationNameLine x = false :=
    fun x hx => hrest x (by simp [hx])
  unfold Block.stream
  rw [hattrs, List.foldl_append, List.foldl_cons, List.foldl_append, List.foldl_cons]
  have hempty := foldl_getAppsStep_name_empty mid
    (getAppsStep (front.foldl getAppsStep
      { apps := [], current := { App.zero with ID := b.id } }) al) hmids hmida hmid
    (by rw [getAppsStep_name_line _ al ha]; exact hv)
  have hset := getAppsStep_media_line _ ml hml hempty
  rw [foldl_getAppsStep_name_of_other tail _ htails htaila (Or.inl (by rw [hset]; exact hmv))]
  exact hset


/-! ### Decimal numerals -/

theorem digitChar_toNat (k : Nat) (h : k < 10) :
    48 ≤ (Nat.digitChar k).toNat ∧ (Nat.digitChar k).toNat ≤ 57 ∧
      (Nat.digitChar k).toNat - 48 = k := by
  interval_cases k <;> decide

theorem parseDigits_toDigitsCore (fuel n : Nat) (ds : Str) (h : n < fuel) :
    parseDigits 0 (Nat.toDigitsCore 10 fuel n ds) = parseDigits n ds := by
  induction fuel generalizing n ds with
  | zero => omega
  | succ fuel ih =>
    obtain ⟨h1, h2, h3⟩ := digitChar_toNat (n % 10) (Nat.mod_lt _ (by decide))
    unfold Nat.toDigitsCore
    simp only
    split_ifs with h0
    · have : n % 10 = n := Nat.mod_eq_of_lt (by omega)
      simp only [parseDigits, h1, h2, and_self, if_true, h3]
      rw [this]
      simp
    · rw [ih (n / 10) _ (by omega)]
      simp only [parseDigits, h1, h2, and_self, if_true, h3]
      congr 1
      omega

theorem parseDigits_cons_digit (acc : Nat) (c : Char) (cs : Str) (n : Nat)
    (h : parseDigits acc (c :: cs) = some n) : 48 ≤ c.toNat ∧ c.toNat ≤ 57 := by
  unfold parseDigits at h
  split_ifs at h with hc
  exact hc

/-- The decimal numeral of a natural number below 2^63 is read back by `Atoi`. -/
theorem Atoi_toDigits (n : Nat) (h : n < 2 ^ 63) : Atoi (Nat.toDigits 10 n) = some (n : Int) := by
  have hp : parseDigits 0 (Nat.toDigits 10 n) = some n := by
    unfold Nat.toDigits
    rw [parseDigits_toDigitsCore _ _ _ (by omega)]
    rfl
  cases hs : Nat.toDigits 10 n with
  | nil =>
    rw [hs] at hp
    have : n = 0 := by simpa [parseDigits] using hp.symm
    subst this
    simp [Nat.toDigits, Nat.toDigitsCore] at hs
  | cons c cs =>
    rw [hs] at hp
    obtain ⟨h1, h2⟩ := parseDigits_cons_digit 0 c cs n hp
    have hm : c ≠ '-' := by rintro rfl; revert h1; decide
    have hpl : c ≠ '+' := by rintro rfl; revert h1; decide
    unfold Atoi
    simp only [hm, hpl, or_self, if_false, List.isEmpty_cons, Bool.false_eq_true, hp,
      decide_False]
    rw [if_pos h]

/-- A volume line whose first token ending in a percent sign is the decimal numeral
of `n` followed by that sign states the percent `n`. -/
theorem statesPercent_of_numeral (line : Str) (pre post : List Str) (n : Nat)
    (hn : n < 2 ^ 63)
    (hf : Fields (TrimSpace line) = pre ++ (Nat.toDigits 10 n ++ ['%']) :: post)
    (hpre : ∀ p ∈ pre, HasSuffix p ['%'] = false) : StatesPercent line (n : Int) :=
  ⟨pre, Nat.toDigits 10 n, post, hf, hpre, Atoi_toDigits n hn⟩

/-! ### Streams never leave the result -/

theorem HasPrefix_append (p s : Str) : HasPrefix (p ++ s) p = true := by
  induction p with
  | nil => simp [HasPrefix]
  | cons c cs ih => simp [HasPrefix]

theorem TrimPrefix_append (p s : Str) : TrimPrefix (p ++ s) p = s := by
  simp [TrimPrefix, HasPrefix_append]

/-! ### The claims about the status parser -/

set_option maxRecDepth 100000 in
theorem blocksText_exampleBlocks : blocksText exampleBlocks = exampleStatus := by decide

set_option maxRecDepth 100000 in
theorem parseStatus_exampleStatus :
    parseStatus exampleStatus =
      [ { ID := "5".toList, Name := [], Volume := 40, DisplayVolume := 0 },
        { ID := "12".toList, Name := [], Volume := 75, DisplayVolume := 0 } ] := by decide

/-- C2: for a status text made of blocks, each opened by a line whose trimmed form is
the marker followed by a non-empty id, the parser returns exactly one stream per
block, in input order; its ID is the text after the marker on the trimmed line, and
its Volume is the percent stated by the last volume line of the block, clamped to
the interval from 0 to 100. The example text parses to the streams "5" at 40 and
"12" at 75, in that order. -/
theorem parseStatus_blocks (bs : List Block) (h : ∀ b ∈ bs, b.WellFormed ∧ b.id ≠ []) :
    List.Forall₂
      (fun (b : Block) (a : App) =>
        a.ID = b.id ∧
        ∀ (front rest : List Str) (vl : Str) (n : Int), b.attrs = front ++ vl :: rest →
          isVolumeLine vl = true → StatesPercent vl n →
          (∀ l ∈ rest, isVolumeLine l = false) → a.Volume = clampPercent n)
      bs (parseStatus (blocksText bs)) ∧
    blocksText exampleBlocks = exampleStatus ∧
    parseStatus exampleStatus =
      [ { ID := "5".toList, Name := [], Volume := 40, DisplayVolume := 0 },
        { ID := "12".toList, Name := [], Volume := 75, DisplayVolume := 0 } ] := by
  refine ⟨?_, blocksText_exampleBlocks, parseStatus_exampleStatus⟩
  rw [parseStatus_blocksText_of_ids bs h, List.forall₂_map_right_iff, List.forall₂_same]
  intro b hb
  refine ⟨Block.stream_ID b (h b hb).1, ?_⟩
  intro front rest vl n hattrs hv hn hrest
  exact Block.stream_volume b (h b hb).1 front rest vl n hattrs hv hn hrest


set_option maxRecDepth 100000 in
theorem exampleBlocks_wellFormed : ∀ b ∈ exampleBlocks, b.WellFormed ∧ b.id ≠ [] := by decide

set_option maxRecDepth 100000 in
theorem exampleBlocks_statesPercent :
    isVolumeLine "\tVolume: mono: 49152 /  75% / -7.50 dB".toList = true ∧
    StatesPercent "\tVolume: mono: 49152 /  75% / -7.50 dB".toList 75 :=
  ⟨by decide,
    ["Volume:".toList, "mono:".toList, "49152".toList, "/".toList], "75".toList,
    ["/".toList, "-7.50".toList, "dB".toList], by decide, by decide, by decide⟩

/-- Witness of C2 on the two blocks of the example text. -/
theorem parseStatus_blocks_witness :
    (∀ b ∈ exampleBlocks, b.WellFormed ∧ b.id ≠ []) ∧
    List.Forall₂
      (fun (b : Block) (a : App) =>
        a.ID = b.id ∧
        ∀ (front rest : List Str) (vl : Str) (n : Int), b.attrs = front ++ vl :: rest →
          isVolumeLine vl = true → StatesPercent vl n →
          (∀ l ∈ rest, isVolumeLine l = false) → a.Volume = clampPercent n)
      exampleBlocks (parseStatus (blocksText exampleBlocks)) :=
  ⟨exampleBlocks_wellFormed, (parseStatus_blocks exampleBlocks exampleBlocks_wellFormed).1⟩

set_option maxRecDepth 100000 in
/-- C3, as stated, fails: in a block whose application-name line has an empty value
and is followed by a media-name line, the parsed Name is the media name. -/
theorem application_name_shadowed :
    shadowedNameBlock.WellFormed ∧ shadowedNameBlock.id ≠ [] ∧
    shadowedNameBlock.attrs.map isApplicationNameLine = [true, false] ∧
    shadowedNameBlock.attrs.map isMediaNameLine = [false, true] ∧
    shadowedNameBlock.attrs.map (fun l => extractValue (TrimSpace l)) = [[], "foo".toList] ∧
    (parseStatus (blocksText [shadowedNameBlock])).map App.Name = ["foo".toList] := by
  decide

/-- C3, amended: in every block, the parsed Name is the value of the last
application-name line, wherever the media-name lines stand, provided that value is
not empty or every media-name line after it has an empty value; when that value is
empty, the parsed Name is the value of the first media-name line after it whose value
is not empty. -/
theorem parseStatus_application_name (bs : List Block)
    (h : ∀ b ∈ bs, b.WellFormed ∧ b.id ≠ []) :
    List.Forall₂
      (fun (b : Block) (a : App) =>
        (∀ (front rest : List Str) (al : Str), b.attrs = front ++ al :: rest →
          isApplicationNameLine al = true →
          (∀ l ∈ rest, isApplicationNameLine l = false) →
          (extractValue (TrimSpace al) ≠ [] ∨
            ∀ l ∈ rest, isMediaNameLine l = true → extractValue (TrimSpace l) = []) →
          a.Name = extractValue (TrimSpace al)) ∧
        (∀ (front mid tail : List Str) (al ml : Str),
          b.attrs = front ++ al :: (mid ++ ml :: tail) →
          isApplicationNameLine al = true → extractValue (TrimSpace al) = [] →
          (∀ l ∈ mid ++ ml :: tail, isApplicationNameLine l = false) →
          (∀ l ∈ mid, isMediaNameLine l = true → extractValue (TrimSpace l) = []) →
          isMediaNameLine ml = true → extractValue (TrimSpace ml) ≠ [] →
          a.Name = extractValue (TrimSpace ml)))
      bs (parseStatus (blocksText bs)) := by
  rw [parseStatus_blocksText_of_ids bs h, List.forall₂_map_right_iff, List.forall₂_same]
  intro b hb
  constructor
  · intro front rest al hattrs ha hrest hm
    exact Block.stream_name_kept b (h b hb).1 front rest al hattrs ha hrest hm
  · intro front mid tail al ml hattrs ha hv hrest hmid hml hmv
    exact Block.stream_name_media b (h b hb).1 front mid tail al ml hattrs ha hv hrest hmid
      hml hmv

set_option maxRecDepth 100000 in
theorem namedBlocks_wellFormed : ∀ b ∈ namedBlocks, b.WellFormed ∧ b.id ≠ [] := by decide

set_option maxRecDepth 100000 in
theorem namedBlocks_names :
    (parseStatus (blocksText namedBlocks)).map App.Name = ["Firefox".toList, "mpv".toList] := by
  decide

set_option maxRecDepth 100000 in
theorem shadowedNameBlock_wellFormed :
    ∀ b ∈ [shadowedNameBlock], b.WellFormed ∧ b.id ≠ [] := by decide

set_option maxRecDepth 100000 in
/-- Witness of the amended C3: two blocks that carry both names, the media name first
in one and last in the other, get the application name; a block whose application
name is empty and is followed by the media name foo gets the Name foo. -/
theorem parseStatus_application_name_witness :
    (∀ b ∈ namedBlocks, b.WellFormed ∧ b.id ≠ []) ∧
    (parseStatus (blocksText namedBlocks)).map App.Name = ["Firefox".toList, "mpv".toList] ∧
    List.Forall₂
      (fun (b : Block) (a : App) =>
        (∀ (front rest : List Str) (al : Str), b.attrs = front ++ al :: rest →
          isApplicationNameLine al = true →
          (∀ l ∈ rest, isApplicationNameLine l = false) →
          (extractValue (TrimSpace al) ≠ [] ∨
            ∀ l ∈ rest, isMediaNameLine l = true → extractValue (TrimSpace l) = []) →
          a.Name = extractValue (TrimSpace al)) ∧
        (∀ (front mid tail : List Str) (al ml : Str),
          b.attrs = front ++ al :: (mid ++ ml :: tail) →
          isApplicationNameLine al = true → extractValue (TrimSpace al) = [] →
          (∀ l ∈ mid ++ ml :: tail, isApplicationNameLine l = false) →
          (∀ l ∈ mid, isMediaNameLine l = true → extractValue (TrimSpace l) = []) →
          isMediaNameLine ml = true → extractValue (TrimSpace ml) ≠ [] →
          a.Name = extractValue (TrimSpace ml)))
      namedBlocks (parseStatus (blocksText namedBlocks)) ∧
    (∃ a, parseStatus (blocksText [shadowedNameBlock]) = [a] ∧ a.Name = "foo".toList) := by
  refine ⟨namedBlocks_wellFormed, namedBlocks_names,
    parseStatus_application_name namedBlocks namedBlocks_wellFormed, ?_⟩
  have h := parseStatus_application_name [shadowedNameBlock] shadowedNameBlock_wellFormed
  obtain ⟨a, u, hR, hu, e⟩ := List.forall₂_cons_left_iff.mp h
  have hnil : u = [] := List.forall₂_nil_left_iff.mp hu
  refine ⟨a, by rw [e, hnil], ?_⟩
  have hname := hR.2 [] [] [] "\tapplication.name = \"\"".toList
    "\tmedia.name = \"foo\"".toList rfl (by decide) (by decide) (by decide) (by decide)
    (by decide) (by decide)
  rw [hname]
  decide

set_option maxRecDepth 100000 in
/-- Witness of C1 on the example text. -/
theorem parseStatus_volume_range_witness :
    (⟨"5".toList, [], 40, 0⟩ : App) ∈ parseStatus exampleStatus ∧
    (0 : Int) ≤ (⟨"5".toList, [], 40, 0⟩ : App).Volume ∧
    (⟨"5".toList, [], 40, 0⟩ : App).Volume ≤ 100 :=
  ⟨by decide, parseStatus_volume_range exampleStatus ⟨"5".toList, [], 40, 0⟩ (by decide)⟩

/-! ## Properties of the volume controller -/

theorem wrapInt_of_range (x : Int) (h1 : -2 ^ 63 ≤ x) (h2 : x < 2 ^ 63) : wrapInt x = x := by
  unfold wrapInt
  omega

theorem getApps_issued {σ : Type} (D : Daemon σ) (w : World σ) :
    (getApps D w).2.issued = w.issued := by
  unfold getApps
  split <;> rfl

theorem getApps_volume_range {σ : Type} (D : Daemon σ) (w : World σ) :
    ∀ a ∈ (getApps D w).1, 0 ≤ a.Volume ∧ a.Volume ≤ 100 := by
  unfold getApps
  split
  · simp
  · exact getAppsLines_volume_range _

theorem getAppVolumeLoop_of_absent (id : Str) (apps : List App)
    (h : ∀ a ∈ apps, a.ID ≠ id) : getAppVolumeLoop id apps = 0 := by
  induction apps with
  | nil => rfl
  | cons a rest ih =>
    simp only [getAppVolumeLoop, if_neg (h a (by simp))]
    exact ih (fun x hx => h x (by simp [hx]))

theorem getAppVolumeLoop_of_present (id : Str) (apps : List App)
    (hr : ∀ a ∈ apps, 0 ≤ a.Volume ∧ a.Volume ≤ 100) (h : ∃ a ∈ apps, a.ID = id) :
    ∃ a ∈ apps, a.ID = id ∧ getAppVolumeLoop id apps = a.Volume := by
  induction apps with
  | nil => simp at h
  | cons a rest ih =>
    by_cases ha : a.ID = id
    · refine ⟨a, by simp, ha, ?_⟩
      have := (hr a (by simp)).2
      simp only [getAppVolumeLoop, if_pos ha]
      rw [if_neg (by omega)]
    · obtain ⟨x, hx, hxid⟩ := h
      have hx2 : x ∈ rest := by
        rcases List.mem_cons.mp hx with e | e
        · exact absurd (e ▸ hxid) ha
        · exact e
      obtain ⟨y, hy, hyid, hyv⟩ := ih (fun z hz => hr z (by simp [hz])) ⟨x, hx2, hxid⟩
      refine ⟨y, by simp [hy], hyid, ?_⟩
      simp only [getAppVolumeLoop, if_neg ha]
      exact hyv

theorem getAppVolumeLoop_range (id : Str) (apps : List App)
    (hr : ∀ a ∈ apps, 0 ≤ a.Volume ∧ a.Volume ≤ 100) :
    0 ≤ getAppVolumeLoop id apps ∧ getAppVolumeLoop id apps ≤ 100 := by
  by_cases h : ∃ a ∈ apps, a.ID = id
  · obtain ⟨a, ha, _, hv⟩ := getAppVolumeLoop_of_present id apps hr h
    rw [hv]
    exact hr a ha
  · rw [getAppVolumeLoop_of_absent id apps (fun a ha e => h ⟨a, ha, e⟩)]
    omega

theorem getAppVolume_range {σ : Type} (D : Daemon σ) (w : World σ) (id : Str) :
    0 ≤ (getAppVolume D w id).1 ∧ (getAppVolume D w id).1 ≤ 100 :=
  getAppVolumeLoop_range id _ (getApps_volume_range D w)

theorem getAppVolume_issued {σ : Type} (D : Daemon σ) (w : World σ) (id : Str) :
    (getAppVolume D w id).2.issued = w.issued :=
  getApps_issued D w

theorem effectiveDelta_of_range (c d : Int) (hc : 0 ≤ c ∧ c ≤ 100)
    (h1 : -2 ^ 63 ≤ c + d) (h2 : c + d < 2 ^ 63) :
    effectiveDelta c d = clampPercent (c + d) - c := by
  unfold effectiveDelta
  simp only [wrapInt_of_range (c + d) h1 h2, clampPercent, max_def, min_def]
  split_ifs <;> (try rw [wrapInt_of_range _ (by omega) (by omega)]) <;> omega

/-- C6: `getAppVolume` returns 0 when no stream read back has the id, and otherwise
the Volume of a stream with that id; the value lies between 0 and 100. -/
theorem getAppVolume_spec {σ : Type} (D : Daemon σ) (w : World σ) (id : Str) :
    ((∀ a ∈ (getApps D w).1, a.ID ≠ id) → (getAppVolume D w id).1 = 0) ∧
    ((∃ a ∈ (getApps D w).1, a.ID = id) →
      ∃ a ∈ (getApps D w).1, a.ID = id ∧ (getAppVolume D w id).1 = a.Volume) ∧
    (0 ≤ (getAppVolume D w id).1 ∧ (getAppVolume D w id).1 ≤ 100) :=
  ⟨getAppVolumeLoop_of_absent id _,
    getAppVolumeLoop_of_present id _ (getApps_volume_range D w),
    getAppVolume_range D w id⟩


set_option maxRecDepth 100000 in
/-- Witness of C6: in the example text the stream "12" is at 75 and there is no
stream "9". -/
theorem getAppVolume_spec_witness :
    (getAppVolume (constDaemon exampleStatus) ⟨(), []⟩ "12".toList).1 = 75 ∧
    (getAppVolume (constDaemon exampleStatus) ⟨(), []⟩ "9".toList).1 = 0 ∧
    (∃ a ∈ (getApps (constDaemon exampleStatus) ⟨(), []⟩).1, a.ID = "12".toList ∧
      (getAppVolume (constDaemon exampleStatus) ⟨(), []⟩ "12".toList).1 = a.Volume) :=
  ⟨by decide,
    (getAppVolume_spec (constDaemon exampleStatus) ⟨(), []⟩ "9".toList).1 (by decide),
    (getAppVolume_spec (constDaemon exampleStatus) ⟨(), []⟩ "12".toList).2.1 (by decide)⟩

set_option maxRecDepth 100000 in
/-- C5, as stated, fails for a delta at the end of the range of `int`: with the
stream at 100 and the delta 2^63 - 1 the clamped sum is 100, so no command should be
sent, but the sum wraps around to a negative number and the command -100% is sent. -/
theorem setVolume_overflow :
    (getAppVolume (constDaemon status100) ⟨(), []⟩ "7".toList).1 = 100 ∧
    clampPercent (100 + (2 ^ 63 - 1)) - 100 = 0 ∧
    (setVolume (constDaemon status100) ⟨(), []⟩ "7".toList (2 ^ 63 - 1)).issued =
      [("7".toList, "-100%".toList)] := by
  decide

set_option maxRecDepth 100000 in
theorem setVolume_examples :
    (setVolume (constDaemon status99) ⟨(), []⟩ "7".toList 2).issued =
      [("7".toList, "+1%".toList)] ∧
    (setVolume (constDaemon status100) ⟨(), []⟩ "7".toList 5).issued = [] := by
  decide

/-- C5, amended: when the sum of the volume `c` read back and the requested delta `d`
is within the range of `int`, `setVolume` issues a set-volume command if and only if
`e = clamp(c + d, 0, 100) - c` is not zero, the signed percent it sends is `e`, and
`c + e` lies between 0 and 100; at `c = 99`, `d = 2` it sends `+1%`, and at
`c = 100`, `d = 5` it sends nothing. -/
theorem setVolume_effective_delta {σ : Type} (D : Daemon σ) (w : World σ) (id : Str) (d : Int)
    (h1 : -2 ^ 63 ≤ (getAppVolume D w id).1 + d) (h2 : (getAppVolume D w id).1 + d < 2 ^ 63) :
    (0 ≤ (getAppVolume D w id).1 ∧ (getAppVolume D w id).1 ≤ 100) ∧
    (setVolume D w id d).issued =
      w.issued ++
        (if clampPercent ((getAppVolume D w id).1 + d) - (getAppVolume D w id).1 = 0 then []
         else [(id, fmtSignedPercent
            (clampPercent ((getAppVolume D w id).1 + d) - (getAppVolume D w id).1))]) ∧
    (0 ≤ (getAppVolume D w id).1 +
        (clampPercent ((getAppVolume D w id).1 + d) - (getAppVolume D w id).1) ∧
      (getAppVolume D w id).1 +
        (clampPercent ((getAppVolume D w id).1 + d) - (getAppVolume D w id).1) ≤ 100) ∧
    (setVolume (constDaemon status99) ⟨(), []⟩ "7".toList 2).issued =
      [("7".toList, "+1%".toList)] ∧
    (setVolume (constDaemon status100) ⟨(), []⟩ "7".toList 5).issued = [] := by
  have hc := getAppVolume_range D w id
  have he := effectiveDelta_of_range _ d hc h1 h2
  have hr := clampPercent_range ((getAppVolume D w id).1 + d)
  refine ⟨hc, ?_, by constructor <;> omega, setVolume_examples⟩
  unfold setVolume
  simp only [he]
  split_ifs with h0
  · simp [getAppVolume_issued]
  · simp [getAppVolume_issued]

set_option maxRecDepth 100000 in
/-- Witness of the amended C5: the stream at 99 and the delta +2. -/
theorem setVolume_effective_delta_witness :
    (getAppVolume (constDaemon status99) ⟨(), []⟩ "7".toList).1 = 99 ∧
    clampPercent (99 + 2) - 99 = 1 ∧
    (setVolume (constDaemon status99) ⟨(), []⟩ "7".toList 2).issued =
      [("7".toList, "+1%".toList)] :=
  ⟨by decide, by decide,
    (setVolume_effective_delta (constDaemon status99) ⟨(), []⟩ "7".toList 2
      (by decide) (by decide)).2.2.2.1⟩


/-! ## Properties of the mixer state -/

theorem Update_tick_eq {σ : Type} (D : Daemon σ) (w : World σ) (m : model) :
    Update D w m Msg.tick = some ({ m with apps := m.apps.map tickApp }, Cmd.tick, w) := by
  unfold Update
  simp

theorem toward_eq (d v : Int) (n : Nat) :
    d + Int.sign (v - d) * min (n : Int) |v - d| =
      if d ≤ v then min (d + n) v else max (d - n) v := by
  rcases lt_trichotomy d v with h | h | h
  · rw [Int.sign_eq_one_of_pos (by omega), abs_of_pos (by omega), if_pos (by omega)]
    simp only [min_def]
    split_ifs <;> omega
  · subst h
    simp
  · rw [Int.sign_eq_neg_one_of_neg (by omega), abs_of_neg (by omega), if_neg (by omega)]
    simp only [min_def, max_def]
    split_ifs <;> omega

theorem tickApp_toward (a : App) (n : Nat) :
    ({ tickApp a with
        DisplayVolume := (tickApp a).DisplayVolume +
          Int.sign ((tickApp a).Volume - (tickApp a).DisplayVolume) *
            min (n : Int) |(tickApp a).Volume - (tickApp a).DisplayVolume| } : App) =
      { a with
        DisplayVolume := a.DisplayVolume +
          Int.sign (a.Volume - a.DisplayVolume) *
            min ((n + 1 : Nat) : Int) |a.Volume - a.DisplayVolume| } := by
  rw [toward_eq, toward_eq]
  unfold tickApp
  split_ifs <;> simp only [App.mk.injEq, true_and, min_def, max_def] <;>
    (try split_ifs) <;> (try push_cast) <;> (try dsimp only at *) <;> omega

theorem run_ticks_eq {σ : Type} (D : Daemon σ) (w : World σ) (m : model) (n : Nat) :
    run D w m (List.replicate n Msg.tick) =
      some ({ m with apps := m.apps.map (fun a =>
        { a with DisplayVolume := a.DisplayVolume +
            Int.sign (a.Volume - a.DisplayVolume) *
              min (n : Int) |a.Volume - a.DisplayVolume| }) }, w) := by
  induction n generalizing m with
  | zero =>
    simp only [List.replicate_zero, run, Nat.cast_zero]
    congr 2
    have : ∀ a : App,
        a.DisplayVolume + Int.sign (a.Volume - a.DisplayVolume) *
          min (0 : Int) |a.Volume - a.DisplayVolume| = a.DisplayVolume := by
      intro a
      rw [min_eq_left (abs_nonneg _)]
      simp
    simp [this]
  | succ n ih =>
    simp only [List.replicate_succ, run, Update_tick_eq]
    rw [ih]
    simp only [List.map_map]
    congr 3
    apply List.map_congr_left
    intro a _
    exact tickApp_toward a n


theorem toward_facts (d v : Int) (n : Nat) :
    (min d v ≤ d + Int.sign (v - d) * min (n : Int) |v - d| ∧
      d + Int.sign (v - d) * min (n : Int) |v - d| ≤ max d v) ∧
    (d + Int.sign (v - d) * min (n : Int) |v - d| = v ↔ |v - d| ≤ (n : Int)) := by
  rw [toward_eq]
  rcases le_or_lt d v with h | h
  · rw [if_pos h, abs_of_nonneg (by omega)]
    simp only [min_def, max_def]
    split_ifs <;> constructor <;> omega
  · rw [if_neg (by omega), abs_of_neg (by omega)]
    simp only [min_def, max_def]
    split_ifs <;> constructor <;> omega

/-- C7: while the Volume of a stream does not change, after `n` Tick events its
DisplayVolume `d` has moved `min(n, |v - d|)` units toward its Volume `v`; the value
stays between `d` and `v`, and it equals `v` exactly from `|v - d|` ticks on. From
`d = 0` and `v = 50` it is `min(k, 50)` after `k` ticks, so 50 is first reached
after 50 ticks. -/
theorem run_ticks_converges {σ : Type} (D : Daemon σ) (w : World σ) (m : model) (n : Nat) :
    run D w m (List.replicate n Msg.tick) =
      some ({ m with apps := m.apps.map (fun a =>
        { a with DisplayVolume := a.DisplayVolume +
            Int.sign (a.Volume - a.DisplayVolume) *
              min (n : Int) |a.Volume - a.DisplayVolume| }) }, w) ∧
    (∀ d v : Int,
      (min d v ≤ d + Int.sign (v - d) * min (n : Int) |v - d| ∧
        d + Int.sign (v - d) * min (n : Int) |v - d| ≤ max d v) ∧
      (d + Int.sign (v - d) * min (n : Int) |v - d| = v ↔ |v - d| ≤ (n : Int))) ∧
    run D w ⟨[⟨"5".toList, [], 50, 0⟩], 0, 0, 0⟩ (List.replicate n Msg.tick) =
      some (⟨[⟨"5".toList, [], 50, min (n : Int) 50⟩], 0, 0, 0⟩, w) := by
  refine ⟨run_ticks_eq D w m n, fun d v => toward_facts d v n, ?_⟩
  have h50 : Int.sign 50 = 1 := rfl
  rw [run_ticks_eq]
  simp [h50]

/-- C8: a Tick event moves the DisplayVolume of every stream one unit toward its
Volume (up if below, down if above, not at all if equal), keeps every ID, Name and
Volume, the length and order of the list, the selection and the viewport, invokes
nothing, and returns the tick command in every case. -/
theorem Update_tick_frame {σ : Type} (D : Daemon σ) (w : World σ) (m : model) :
    ∃ m1 : model, Update D w m Msg.tick = some (m1, Cmd.tick, w) ∧
      m1.selected = m.selected ∧ m1.width = m.width ∧ m1.height = m.height ∧
      List.Forall₂
        (fun (a b : App) =>
          b.ID = a.ID ∧ b.Name = a.Name ∧ b.Volume = a.Volume ∧
          (a.DisplayVolume < a.Volume → b.DisplayVolume = a.DisplayVolume + 1) ∧
          (a.DisplayVolume > a.Volume → b.DisplayVolume = a.DisplayVolume - 1) ∧
          (a.DisplayVolume = a.Volume → b.DisplayVolume = a.DisplayVolume))
        m.apps m1.apps := by
  refine ⟨_, Update_tick_eq D w m, rfl, rfl, rfl, ?_⟩
  simp only [List.forall₂_map_right_iff, List.forall₂_same]
  intro a _
  unfold tickApp
  split_ifs <;> refine ⟨rfl, rfl, rfl, ?_, ?_, ?_⟩ <;> intro h <;> first | rfl | omega

/-- C9: with a non-empty list and the selection within it, "up" sets the selection to
`max(selected - 1, 0)` and "down" to `min(selected + 1, len - 1)` and change nothing
else, so "up" at index 0 and "down" at the last index leave the state unchanged; with
an empty list (where the selection is 0) both leave the state unchanged. -/
theorem Update_move {σ : Type} (D : Daemon σ) (w : World σ) (m : model) :
    ((m.apps ≠ [] ∧ 0 ≤ m.selected ∧ m.selected < m.apps.length) →
      Update D w m (Msg.key "up".toList) =
        some ({ m with selected := max (m.selected - 1) 0 }, Cmd.none, w) ∧
      Update D w m (Msg.key "down".toList) =
        some ({ m with selected := min (m.selected + 1) ((m.apps.length : Int) - 1) },
          Cmd.none, w) ∧
      (m.selected = 0 → Update D w m (Msg.key "up".toList) = some (m, Cmd.none, w)) ∧
      (m.selected = (m.apps.length : Int) - 1 →
        Update D w m (Msg.key "down".toList) = some (m, Cmd.none, w))) ∧
    ((m.apps = [] ∧ m.selected = 0) →
      Update D w m (Msg.key "up".toList) = some (m, Cmd.none, w) ∧
      Update D w m (Msg.key "down".toList) = some (m, Cmd.none, w)) := by
  have hup : Update D w m (Msg.key "up".toList) =
      some (if m.selected > 0 then { m with selected := m.selected - 1 } else m, Cmd.none, w) := by
    have h1 : ¬("up".toList = "q".toList ∨ "up".toList = "ctrl+c".toList) := by decide
    unfold Update
    dsimp only
    rw [if_neg h1, if_pos rfl]
  have hdown : Update D w m (Msg.key "down".toList) =
      some (if m.selected < (m.apps.length : Int) - 1 then { m with selected := m.selected + 1 }
        else m, Cmd.none, w) := by
    have h1 : ¬("down".toList = "q".toList ∨ "down".toList = "ctrl+c".toList) := by decide
    have h2 : ¬("down".toList = "up".toList) := by decide
    unfold Update
    dsimp only
    rw [if_neg h1, if_neg h2, if_pos rfl]
  rw [hup, hdown]
  constructor
  · rintro ⟨_, h0, h1⟩
    refine ⟨?_, ?_, ?_, ?_⟩
    · split_ifs with h
      · rw [max_eq_left (by omega)]
      · have : m.selected = 0 := by omega
        rw [max_eq_right (by omega)]
        cases m
        simp_all
    · split_ifs with h
      · rw [min_eq_left (by omega)]
      · have : m.selected = (m.apps.length : Int) - 1 := by omega
        rw [min_eq_right (by omega)]
        cases m
        simp_all
    · intro h
      rw [if_neg (by omega)]
    · intro h
      rw [if_neg (by omega)]
  · rintro ⟨he, h0⟩
    rw [if_neg (by omega), if_neg (by simp [he, h0])]
    exact ⟨rfl, rfl⟩


/-- Witness of C9: in the example model "up" at index 0 changes nothing and "down"
moves the selection to index 1; in the empty model both change nothing. -/
theorem Update_move_witness :
    (exampleModel.apps ≠ [] ∧ 0 ≤ exampleModel.selected ∧
      exampleModel.selected < exampleModel.apps.length) ∧
    Update (constDaemon exampleStatus) ⟨(), []⟩ exampleModel (Msg.key "up".toList) =
      some (exampleModel, Cmd.none, ⟨(), []⟩) ∧
    Update (constDaemon exampleStatus) ⟨(), []⟩ exampleModel (Msg.key "down".toList) =
      some ({ exampleModel with selected := 1 }, Cmd.none, ⟨(), []⟩) ∧
    Update (constDaemon []) ⟨(), []⟩ ⟨[], 0, 0, 0⟩ (Msg.key "down".toList) =
      some (⟨[], 0, 0, 0⟩, Cmd.none, ⟨(), []⟩) :=
  ⟨by decide,
    ((Update_move (constDaemon exampleStatus) ⟨(), []⟩ exampleModel).1 (by decide)).2.2.1 rfl,
    ((Update_move (constDaemon exampleStatus) ⟨(), []⟩ exampleModel).1 (by decide)).2.1,
    ((Update_move (constDaemon []) ⟨(), []⟩ ⟨[], 0, 0, 0⟩).2 ⟨rfl, rfl⟩).2⟩

theorem updateVolumes_frame {σ : Type} (D : Daemon σ) (w : World σ) (m : model) :
    (updateVolumes D w m).1.apps.length = m.apps.length ∧
    (updateVolumes D w m).1.selected = m.selected := by
  unfold updateVolumes
  simp

theorem selectedApp_of_range (m : model) (h0 : 0 ≤ m.selected)
    (h1 : m.selected < m.apps.length) : ∃ a, selectedApp m = some a := by
  unfold selectedApp
  rw [if_pos h0]
  have : m.selected.toNat < m.apps.length := by omega
  exact ⟨m.apps.get ⟨_, this⟩, List.get?_eq_get this⟩

theorem adjustSelected_selection {σ : Type} (D : Daemon σ) (w : World σ) (m : model)
    (delta : Int) (h : m.apps ≠ [] ∧ 0 ≤ m.selected ∧ m.selected < m.apps.length) :
    ∃ m1 c w1, adjustSelected D w m delta = some (m1, c, w1) ∧
      (m1.apps ≠ [] ∧ 0 ≤ m1.selected ∧ m1.selected < m1.apps.length) := by
  obtain ⟨hne, h0, h1⟩ := h
  obtain ⟨a, ha⟩ := selectedApp_of_range m h0 h1
  have hlen : m.apps.length > 0 := List.length_pos.mpr hne
  unfold adjustSelected
  rw [if_pos hlen, ha]
  obtain ⟨e1, e2⟩ := updateVolumes_frame D (setVolume D w a.ID delta) m
  refine ⟨_, _, _, rfl, ?_, ?_, ?_⟩
  · intro hnil
    rw [hnil] at e1
    simp at e1
    omega
  · dsimp only
    rw [e2]; exact h0
  · dsimp only
    rw [e2, e1]; exact h1

theorem adjustSelected_empty {σ : Type} (D : Daemon σ) (w : World σ) (m : model)
    (delta : Int) (h : m.apps = []) : adjustSelected D w m delta = some (m, Cmd.none, w) := by
  unfold adjustSelected
  rw [if_neg (by simp [h])]

/-- In the empty state, where the selection is 0, every event leaves the list empty
and the selection at 0. -/
theorem Update_empty {σ : Type} (D : Daemon σ) (w : World σ) (m : model) (msg : Msg)
    (h : m.apps = [] ∧ m.selected = 0) :
    ∃ m1 c w1, Update D w m msg = some (m1, c, w1) ∧ m1.apps = [] ∧ m1.selected = 0 := by
  obtain ⟨he, h0⟩ := h
  cases msg with
  | windowSize width height => exact ⟨_, _, _, rfl, he, h0⟩
  | key name =>
    unfold Update
    dsimp only
    split_ifs
    all_goals first
      | exact ⟨_, _, _, rfl, he, h0⟩
      | exact ⟨_, _, _, adjustSelected_empty D w m _ he, he, h0⟩
      | (exfalso; omega)
      | (exfalso; simp [he, h0] at *)
  | tick => exact ⟨_, _, _, Update_tick_eq D w m, by simp [he], h0⟩
  | other => exact ⟨_, _, _, rfl, he, h0⟩

theorem Update_selection_step {σ : Type} (D : Daemon σ) (w : World σ) (m : model) (msg : Msg)
    (h : m.apps ≠ [] ∧ 0 ≤ m.selected ∧ m.selected < m.apps.length) :
    ∃ m1 c w1, Update D w m msg = some (m1, c, w1) ∧
      (m1.apps ≠ [] ∧ 0 ≤ m1.selected ∧ m1.selected < m1.apps.length) := by
  cases msg with
  | windowSize width height => exact ⟨_, _, _, rfl, h⟩
  | key name =>
    unfold Update
    dsimp only
    split_ifs
    all_goals first
      | exact ⟨_, _, _, rfl, h⟩
      | exact adjustSelected_selection D w m _ h
      | (refine ⟨_, _, _, rfl, h.1, ?_, ?_⟩ <;> dsimp only <;> omega)
  | tick =>
    refine ⟨_, _, _, Update_tick_eq D w m, ?_, h.2.1, ?_⟩
    · simpa using h.1
    · simpa using h.2.2
  | other => exact ⟨_, _, _, rfl, h⟩

/-- C10: the initial model has the selection 0, and every event delivered to a model
with a non-empty list and the selection within it, whatever the daemon reports,
returns a model with a non-empty list and the selection within it. -/
theorem Update_selection_invariant {σ : Type} (D : Daemon σ) (w : World σ) :
    (initialModel D w).1.selected = 0 ∧
    ∀ (m : model) (msg : Msg),
      (m.apps ≠ [] ∧ 0 ≤ m.selected ∧ m.selected < m.apps.length) →
      ∃ m1 c w1, Update D w m msg = some (m1, c, w1) ∧
        (m1.apps ≠ [] ∧ 0 ≤ m1.selected ∧ m1.selected < m1.apps.length) :=
  ⟨rfl, fun m msg h => Update_selection_step D w m msg h⟩

/-- Witness of C10: the key "right" delivered to the example model. -/
theorem Update_selection_invariant_witness :
    (exampleModel.apps ≠ [] ∧ 0 ≤ exampleModel.selected ∧
      exampleModel.selected < exampleModel.apps.length) ∧
    ∃ m1 c w1,
      Update (constDaemon exampleStatus) ⟨(), []⟩ exampleModel (Msg.key "right".toList) =
        some (m1, c, w1) ∧
      (m1.apps ≠ [] ∧ 0 ≤ m1.selected ∧ m1.selected < m1.apps.length) :=
  ⟨by decide,
    (Update_selection_invariant (constDaemon exampleStatus) ⟨(), []⟩).2 exampleModel
      (Msg.key "right".toList) (by decide)⟩


set_option maxRecDepth 100000 in
theorem initialModel_exampleStatus :
    (initialModel (constDaemon exampleStatus) ⟨(), []⟩).1 = exampleModel := by decide

theorem initialModel_selection {σ : Type} (D : Daemon σ) (w : World σ) :
    ((initialModel D w).1.apps = [] ∧ (initialModel D w).1.selected = 0) ∨
    ((initialModel D w).1.apps ≠ [] ∧ 0 ≤ (initialModel D w).1.selected ∧
      (initialModel D w).1.selected < (initialModel D w).1.apps.length) := by
  by_cases h : (initialModel D w).1.apps = []
  · exact Or.inl ⟨h, rfl⟩
  · refine Or.inr ⟨h, le_refl _, ?_⟩
    have : 0 < (initialModel D w).1.apps.length := List.length_pos.mpr h
    show (0 : Int) < _
    omega

/-- The event loop never panics and keeps the selection within the list: from a
state that is empty with the selection 0, or non-empty with the selection within the
list, every sequence of events ends in such a state. -/
theorem run_selection {σ : Type} (D : Daemon σ) (msgs : List Msg) (w : World σ) (m : model)
    (h : (m.apps = [] ∧ m.selected = 0) ∨
      (m.apps ≠ [] ∧ 0 ≤ m.selected ∧ m.selected < m.apps.length)) :
    ∃ m1 w1, run D w m msgs = some (m1, w1) ∧
      ((m1.apps = [] ∧ m1.selected = 0) ∨
        (m1.apps ≠ [] ∧ 0 ≤ m1.selected ∧ m1.selected < m1.apps.length)) := by
  induction msgs generalizing w m with
  | nil => exact ⟨m, w, rfl, h⟩
  | cons msg rest ih =>
    have hstep : ∃ m1 c w1, Update D w m msg = some (m1, c, w1) ∧
        ((m1.apps = [] ∧ m1.selected = 0) ∨
          (m1.apps ≠ [] ∧ 0 ≤ m1.selected ∧ m1.selected < m1.apps.length)) := by
      rcases h with h | h
      · obtain ⟨m1, c, w1, e, h1⟩ := Update_empty D w m msg h
        exact ⟨m1, c, w1, e, Or.inl h1⟩
      · obtain ⟨m1, c, w1, e, h1⟩ := (Update_selection_step D w m msg h)
        exact ⟨m1, c, w1, e, Or.inr h1⟩
    obtain ⟨m1, c, w1, e, h1⟩ := hstep
    unfold run
    rw [e]
    cases c with
    | quit => exact ⟨m1, w1, rfl, h1⟩
    | none => exact ih w1 m1 h1
    | tick => exact ih w1 m1 h1

/-! ## Properties of the in-place merge -/

theorem updateVolumesEntry_nil (a : App) : updateVolumesEntry [] a = a := rfl

theorem updateVolumesEntry_cons (s : App) (sys : List App) (a : App) :
    updateVolumesEntry (s :: sys) a =
      updateVolumesEntry sys
        (if a.ID = s.ID then { a with Volume := if s.Volume > 100 then (100 : Int) else s.Volume }
         else a) := rfl

theorem updateVolumesEntry_append (pre post : List App) (a : App) :
    updateVolumesEntry (pre ++ post) a = updateVolumesEntry post (updateVolumesEntry pre a) := by
  unfold updateVolumesEntry
  rw [List.foldl_append]

theorem updateVolumesEntry_frame (sys : List App) (a : App) :
    (updateVolumesEntry sys a).ID = a.ID ∧ (updateVolumesEntry sys a).Name = a.Name ∧
      (updateVolumesEntry sys a).DisplayVolume = a.DisplayVolume := by
  induction sys generalizing a with
  | nil => exact ⟨rfl, rfl, rfl⟩
  | cons s sys ih =>
    rw [updateVolumesEntry_cons]
    obtain ⟨h1, h2, h3⟩ := ih (if a.ID = s.ID then
      { a with Volume := if s.Volume > 100 then (100 : Int) else s.Volume } else a)
    rw [h1, h2, h3]
    split_ifs <;> exact ⟨rfl, rfl, rfl⟩

theorem updateVolumesEntry_of_absent (sys : List App) (a : App)
    (h : ∀ s ∈ sys, s.ID ≠ a.ID) : updateVolumesEntry sys a = a := by
  induction sys generalizing a with
  | nil => rfl
  | cons s sys ih =>
    rw [updateVolumesEntry_cons, if_neg (fun e => h s (by simp) e.symm)]
    exact ih a (fun x hx => h x (by simp [hx]))

/-- The merge copies the volume of the last reported stream with the id of the entry. -/
theorem updateVolumesEntry_last (pre post : List App) (s a : App) (hs : s.ID = a.ID)
    (hpost : ∀ x ∈ post, x.ID ≠ a.ID) :
    (updateVolumesEntry (pre ++ s :: post) a).Volume = min s.Volume 100 := by
  rw [updateVolumesEntry_append, updateVolumesEntry_cons]
  have hid := (updateVolumesEntry_frame pre a).1
  rw [if_pos (by rw [hid, hs])]
  rw [updateVolumesEntry_of_absent post _ (fun x hx => by simpa [hid] using hpost x hx)]
  simp only [min_def]
  split_ifs <;> omega

/-- The loop of `getAppVolume` returns the volume of the first stream with the id. -/
theorem getAppVolumeLoop_first (pre post : List App) (s : App) (id : Str) (hs : s.ID = id)
    (hpre : ∀ x ∈ pre, x.ID ≠ id) :
    getAppVolumeLoop id (pre ++ s :: post) = min s.Volume 100 := by
  induction pre with
  | nil =>
    simp only [List.nil_append, getAppVolumeLoop, if_pos hs, min_def]
    split_ifs <;> omega
  | cons p pre ih =>
    simp only [List.cons_append, getAppVolumeLoop, if_neg (hpre p (by simp))]
    exact ih (fun x hx => hpre x (by simp [hx]))

theorem exists_last_with_id (sys : List App) (id : Str) (h : ∃ s ∈ sys, s.ID = id) :
    ∃ pre s post, sys = pre ++ s :: post ∧ s.ID = id ∧ ∀ x ∈ post, x.ID ≠ id := by
  induction sys with
  | nil => simp at h
  | cons t sys ih =>
    by_cases ht : ∃ s ∈ sys, s.ID = id
    · obtain ⟨pre, s, post, e, hs, hp⟩ := ih ht
      exact ⟨t :: pre, s, post, by rw [e]; rfl, hs, hp⟩
    · obtain ⟨s, hs, hid⟩ := h
      have hst : s = t := by
        rcases List.mem_cons.mp hs with e | e
        · exact e
        · exact absurd ⟨s, e, hid⟩ ht
      subst hst
      exact ⟨[], s, sys, rfl, hid, fun x hx e => ht ⟨x, hx, e⟩⟩

theorem updateVolumesEntry_of_present (sys : List App) (a : App)
    (h : ∃ s ∈ sys, s.ID = a.ID) :
    ∃ s ∈ sys, s.ID = a.ID ∧ (updateVolumesEntry sys a).Volume = min s.Volume 100 := by
  obtain ⟨pre, s, post, e, hs, hp⟩ := exists_last_with_id sys a.ID h
  refine ⟨s, by rw [e]; simp, hs, ?_⟩
  rw [e]
  exact updateVolumesEntry_last pre post s a hs hp

theorem updateVolumesEntry_volume_range (sys : List App) (a : App)
    (hsys : ∀ s ∈ sys, 0 ≤ s.Volume) (ha : 0 ≤ a.Volume ∧ a.Volume ≤ 100) :
    0 ≤ (updateVolumesEntry sys a).Volume ∧ (updateVolumesEntry sys a).Volume ≤ 100 := by
  by_cases h : ∃ s ∈ sys, s.ID = a.ID
  · obtain ⟨s, hs, _, hv⟩ := updateVolumesEntry_of_present sys a h
    have := hsys s hs
    rw [hv]
    simp only [min_def]
    split_ifs <;> constructor <;> omega
  · rw [updateVolumesEntry_of_absent sys a (fun s hs e => h ⟨s, hs, e⟩)]
    exact ha

theorem updateVolumes_apps {σ : Type} (D : Daemon σ) (w : World σ) (m : model) :
    (updateVolumes D w m).1 =
      { m with apps := m.apps.map (updateVolumesEntry (getApps D w).1) } := rfl

/-- C12: the in-place merge returns a list of the same length in which every entry
keeps its position, ID, Name and DisplayVolume; an entry whose ID occurs in the
report gets the Volume of a reported stream with that ID, capped at 100, and an entry
whose ID does not occur in the report is left unchanged. This holds for every
reported list, and `updateVolumes` applies it to the list read from the daemon,
leaving the selection and the viewport alone. -/
theorem updateVolumes_merge {σ : Type} (D : Daemon σ) (w : World σ) (m : model)
    (sys : List App) :
    List.Forall₂
      (fun (a b : App) =>
        b.ID = a.ID ∧ b.Name = a.Name ∧ b.DisplayVolume = a.DisplayVolume ∧
        ((∃ s ∈ sys, s.ID = a.ID) → ∃ s ∈ sys, s.ID = a.ID ∧ b.Volume = min s.Volume 100) ∧
        ((∀ s ∈ sys, s.ID ≠ a.ID) → b = a))
      m.apps (m.apps.map (updateVolumesEntry sys)) ∧
    (updateVolumes D w m).1 =
      { m with apps := m.apps.map (updateVolumesEntry (getApps D w).1) } ∧
    (updateVolumes D w m).2 = (getApps D w).2 := by
  refine ⟨?_, rfl, rfl⟩
  rw [List.forall₂_map_right_iff, List.forall₂_same]
  intro a _
  obtain ⟨h1, h2, h3⟩ := updateVolumesEntry_frame sys a
  exact ⟨h1, h2, h3, updateVolumesEntry_of_present sys a, updateVolumesEntry_of_absent sys a⟩

/-! ## The stream list under `Update` -/

theorem adjustSelected_apps {σ : Type} (D : Daemon σ) (w : World σ) (m : model) (delta : Int)
    (m1 : model) (c : Cmd) (w1 : World σ) (h : adjustSelected D w m delta = some (m1, c, w1)) :
    m1 = m ∨ ∃ w0 : World σ, m1 = { m with apps := m.apps.map (updateVolumesEntry (getApps D w0).1) } := by
  unfold adjustSelected at h
  split_ifs at h
  · split at h
    · exact absurd h (by simp)
    · rename_i a _
      simp only [Option.some.injEq, Prod.mk.injEq] at h
      exact Or.inr ⟨setVolume D w a.ID delta, h.1.symm⟩
  · simp only [Option.some.injEq, Prod.mk.injEq] at h
    exact Or.inl h.1.symm

/-- The three ways in which `Update` changes the model: the stream list is kept, or
every stream makes one animation step, or the volumes reported by the daemon are
merged into it; the selection and the viewport change only with a kept list. -/
theorem Update_apps {σ : Type} (D : Daemon σ) (w : World σ) (m : model) (msg : Msg)
    (m1 : model) (c : Cmd) (w1 : World σ) (h : Update D w m msg = some (m1, c, w1)) :
    m1.apps = m.apps ∨ m1.apps = m.apps.map tickApp ∨
      ∃ w0 : World σ, m1.apps = m.apps.map (updateVolumesEntry (getApps D w0).1) := by
  cases msg with
  | windowSize width height =>
    simp only [Update, Option.some.injEq, Prod.mk.injEq] at h
    exact Or.inl (by rw [← h.1])
  | key name =>
    unfold Update at h
    dsimp only at h
    split_ifs at h
    all_goals first
      | (simp only [Option.some.injEq, Prod.mk.injEq] at h
         exact Or.inl (by rw [← h.1]))
      | (have h2 := adjustSelected_apps D w m _ m1 c w1 h
         rcases h2 with e | ⟨w0, e⟩
         · exact Or.inl (by rw [e])
         · exact Or.inr (Or.inr ⟨w0, by rw [e]⟩))
  | tick =>
    rw [Update_tick_eq] at h
    simp only [Option.some.injEq, Prod.mk.injEq] at h
    exact Or.inr (Or.inl (by rw [← h.1]))
  | other =>
    simp only [Update, Option.some.injEq, Prod.mk.injEq] at h
    exact Or.inl (by rw [← h.1])

theorem Update_returns {σ : Type} (D : Daemon σ) (w : World σ) (m : model) (msg : Msg)
    (h : m.apps = [] ∨ (0 ≤ m.selected ∧ m.selected < m.apps.length)) :
    ∃ m1 c w1, Update D w m msg = some (m1, c, w1) := by
  have hadj : ∀ delta, ∃ m1 c w1, adjustSelected D w m delta = some (m1, c, w1) := by
    intro delta
    by_cases he : m.apps = []
    · exact ⟨_, _, _, adjustSelected_empty D w m delta he⟩
    · rcases h with h | h
      · exact absurd h he
      · obtain ⟨m1, c, w1, e, _⟩ := adjustSelected_selection D w m delta ⟨he, h.1, h.2⟩
        exact ⟨m1, c, w1, e⟩
  cases msg with
  | windowSize width height => exact ⟨_, _, _, rfl⟩
  | key name =>
    unfold Update
    dsimp only
    split_ifs
    all_goals first
      | exact ⟨_, _, _, rfl⟩
      | exact hadj _
  | tick => exact ⟨_, _, _, Update_tick_eq D w m⟩
  | other => exact ⟨_, _, _, rfl⟩

theorem tickApp_frame (a : App) :
    (tickApp a).ID = a.ID ∧ (tickApp a).Name = a.Name ∧ (tickApp a).Volume = a.Volume := by
  unfold tickApp
  split_ifs <;> exact ⟨rfl, rfl, rfl⟩

theorem tickApp_range (a : App)
    (h : 0 ≤ a.Volume ∧ a.Volume ≤ 100 ∧ 0 ≤ a.DisplayVolume ∧ a.DisplayVolume ≤ 100) :
    0 ≤ (tickApp a).Volume ∧ (tickApp a).Volume ≤ 100 ∧
      0 ≤ (tickApp a).DisplayVolume ∧ (tickApp a).DisplayVolume ≤ 100 := by
  unfold tickApp
  split_ifs <;> (try dsimp only) <;> omega

theorem updateVolumesEntry_range {σ : Type} (D : Daemon σ) (w0 : World σ) (a : App)
    (h : 0 ≤ a.Volume ∧ a.Volume ≤ 100 ∧ 0 ≤ a.DisplayVolume ∧ a.DisplayVolume ≤ 100) :
    0 ≤ (updateVolumesEntry (getApps D w0).1 a).Volume ∧
      (updateVolumesEntry (getApps D w0).1 a).Volume ≤ 100 ∧
      0 ≤ (updateVolumesEntry (getApps D w0).1 a).DisplayVolume ∧
      (updateVolumesEntry (getApps D w0).1 a).DisplayVolume ≤ 100 := by
  obtain ⟨hv1, hv2⟩ := updateVolumesEntry_volume_range (getApps D w0).1 a
    (fun s hs => (getApps_volume_range D w0 s hs).1) ⟨h.1, h.2.1⟩
  rw [(updateVolumesEntry_frame _ a).2.2]
  exact ⟨hv1, hv2, h.2.2⟩

theorem initialModel_range {σ : Type} (D : Daemon σ) (w : World σ) :
    ∀ a ∈ (initialModel D w).1.apps,
      0 ≤ a.Volume ∧ a.Volume ≤ 100 ∧ 0 ≤ a.DisplayVolume ∧ a.DisplayVolume ≤ 100 := by
  intro a ha
  unfold initialModel at ha
  simp only [List.mem_map] at ha
  obtain ⟨s, hs, rfl⟩ := ha
  have := getApps_volume_range D w s hs
  dsimp only
  split_ifs <;> omega

/-- C11: every stream of the initial model has its Volume and its DisplayVolume
between 0 and 100; when all streams of a model are within these bounds, all streams
of the model returned by `Update` are, for every event and whatever the daemon
reports; and `Update` does return a model when the list is empty or the selection is
within it. -/
theorem Update_volume_invariant {σ : Type} (D : Daemon σ) (w : World σ) :
    (∀ a ∈ (initialModel D w).1.apps,
      0 ≤ a.Volume ∧ a.Volume ≤ 100 ∧ 0 ≤ a.DisplayVolume ∧ a.DisplayVolume ≤ 100) ∧
    ∀ (m : model) (msg : Msg),
      (∀ a ∈ m.apps,
        0 ≤ a.Volume ∧ a.Volume ≤ 100 ∧ 0 ≤ a.DisplayVolume ∧ a.DisplayVolume ≤ 100) →
      (∀ m1 c w1, Update D w m msg = some (m1, c, w1) →
        ∀ a ∈ m1.apps,
          0 ≤ a.Volume ∧ a.Volume ≤ 100 ∧ 0 ≤ a.DisplayVolume ∧ a.DisplayVolume ≤ 100) ∧
      ((m.apps = [] ∨ (0 ≤ m.selected ∧ m.selected < m.apps.length)) →
        ∃ m1 c w1, Update D w m msg = some (m1, c, w1)) := by
  refine ⟨initialModel_range D w, fun m msg hm => ⟨?_, Update_returns D w m msg⟩⟩
  intro m1 c w1 h a ha
  rcases Update_apps D w m msg m1 c w1 h with e | e | ⟨w0, e⟩
  · exact hm a (e ▸ ha)
  · rw [e] at ha
    obtain ⟨b, hb, rfl⟩ := List.mem_map.mp ha
    exact tickApp_range b (hm b hb)
  · rw [e] at ha
    obtain ⟨b, hb, rfl⟩ := List.mem_map.mp ha
    exact updateVolumesEntry_range D w0 b (hm b hb)

/-- C18: no event adds, removes or reorders streams: the model returned by `Update` has
the same sequence of IDs and of Names, hence the same length, as the model it was
given, for every event and whatever the daemon reports, and `Update` does return a
model when the list is empty or the selection is within it; the list itself comes from
the parse made by `initialModel`, stream by stream. -/
theorem Update_keeps_streams {σ : Type} (D : Daemon σ) (w : World σ) (m : model) (msg : Msg) :
    (∀ m1 c w1, Update D w m msg = some (m1, c, w1) →
      m1.apps.map App.ID = m.apps.map App.ID ∧ m1.apps.map App.Name = m.apps.map App.Name ∧
        m1.apps.length = m.apps.length) ∧
    ((m.apps = [] ∨ (0 ≤ m.selected ∧ m.selected < m.apps.length)) →
      ∃ m1 c w1, Update D w m msg = some (m1, c, w1)) ∧
    ((initialModel D w).1.apps.map App.ID = (getApps D w).1.map App.ID ∧
      (initialModel D w).1.apps.map App.Name = (getApps D w).1.map App.Name) := by
  refine ⟨?_, Update_returns D w m msg, ?_⟩
  · intro m1 c w1 h
    rcases Update_apps D w m msg m1 c w1 h with e | e | ⟨w0, e⟩
    · rw [e]; exact ⟨rfl, rfl, rfl⟩
    · rw [e]
      refine ⟨?_, ?_, by simp⟩
      · rw [List.map_map]; exact List.map_congr_left (fun a _ => (tickApp_frame a).1)
      · rw [List.map_map]; exact List.map_congr_left (fun a _ => (tickApp_frame a).2.1)
    · rw [e]
      refine ⟨?_, ?_, by simp⟩
      · rw [List.map_map]
        exact List.map_congr_left (fun a _ => (updateVolumesEntry_frame _ a).1)
      · rw [List.map_map]
        exact List.map_congr_left (fun a _ => (updateVolumesEntry_frame _ a).2.1)
  · unfold initialModel
    simp only [List.map_map]
    exact ⟨List.map_congr_left (fun a _ => rfl), List.map_congr_left (fun a _ => rfl)⟩

set_option maxRecDepth 100000 in
theorem exampleModel_range :
    ∀ a ∈ exampleModel.apps,
      0 ≤ a.Volume ∧ a.Volume ≤ 100 ∧ 0 ≤ a.DisplayVolume ∧ a.DisplayVolume ≤ 100 := by
  decide

/-- Witness of C11: the key "right" delivered to the example model. -/
theorem Update_volume_invariant_witness :
    (∀ a ∈ exampleModel.apps,
      0 ≤ a.Volume ∧ a.Volume ≤ 100 ∧ 0 ≤ a.DisplayVolume ∧ a.DisplayVolume ≤ 100) ∧
    (∃ m1 c w1,
      Update (constDaemon exampleStatus) ⟨(), []⟩ exampleModel (Msg.key "right".toList) =
        some (m1, c, w1)) ∧
    (∀ m1 c w1,
      Update (constDaemon exampleStatus) ⟨(), []⟩ exampleModel (Msg.key "right".toList) =
        some (m1, c, w1) →
      ∀ a ∈ m1.apps,
        0 ≤ a.Volume ∧ a.Volume ≤ 100 ∧ 0 ≤ a.DisplayVolume ∧ a.DisplayVolume ≤ 100) :=
  ⟨exampleModel_range,
    ((Update_volume_invariant (constDaemon exampleStatus) ⟨(), []⟩).2 exampleModel
      (Msg.key "right".toList) exampleModel_range).2 (Or.inr (by decide)),
    ((Update_volume_invariant (constDaemon exampleStatus) ⟨(), []⟩).2 exampleModel
      (Msg.key "right".toList) exampleModel_range).1⟩

/-- Witness of C18: the key "left" delivered to the example model returns a model. -/
theorem Update_keeps_streams_witness :
    ∃ m1 c w1,
      Update (constDaemon exampleStatus) ⟨(), []⟩ exampleModel (Msg.key "left".toList) =
        some (m1, c, w1) :=
  (Update_keeps_streams (constDaemon exampleStatus) ⟨(), []⟩ exampleModel
    (Msg.key "left".toList)).2.1 (Or.inr (by decide))

theorem not_mem_ids_of_nodup (pre post : List App) (s : App)
    (h : ((pre ++ s :: post).map App.ID).Nodup) : ∀ x ∈ pre, x.ID ≠ s.ID := by
  intro x hx e
  rw [List.map_append, List.nodup_append] at h
  exact h.2.2 (List.mem_map_of_mem App.ID hx) (by simp [e])

set_option maxRecDepth 100000 in
theorem duplicateStatus_volumes :
    (updateVolumesEntry (parseStatus duplicateStatus) ⟨"5".toList, [], 0, 0⟩).Volume = 60 ∧
      getAppVolumeLoop "5".toList (parseStatus duplicateStatus) = 40 := by
  decide

/-- C20: the in-place merge copies the Volume (capped at 100) of the last reported
stream with the id of the entry, while the loop of `getAppVolume` returns that of the
first one; a report with the id 5 at 40 and again at 60 gives 60 to the merge and 40
to `getAppVolume`. When the ids of the report are pairwise distinct, every entry whose
id is reported gets the Volume that `getAppVolume` returns for its id. -/
theorem merge_last_lookup_first (sys : List App) (a : App) :
    (∀ pre s post, sys = pre ++ s :: post → s.ID = a.ID → (∀ x ∈ post, x.ID ≠ a.ID) →
      (updateVolumesEntry sys a).Volume = min s.Volume 100) ∧
    (∀ pre s post, sys = pre ++ s :: post → s.ID = a.ID → (∀ x ∈ pre, x.ID ≠ a.ID) →
      getAppVolumeLoop a.ID sys = min s.Volume 100) ∧
    ((sys.map App.ID).Nodup → (∃ s ∈ sys, s.ID = a.ID) →
      (updateVolumesEntry sys a).Volume = getAppVolumeLoop a.ID sys) ∧
    ((updateVolumesEntry (parseStatus duplicateStatus) ⟨"5".toList, [], 0, 0⟩).Volume = 60 ∧
      getAppVolumeLoop "5".toList (parseStatus duplicateStatus) = 40) := by
  refine ⟨?_, ?_, ?_, duplicateStatus_volumes⟩
  · intro pre s post e hs hp
    rw [e]
    exact updateVolumesEntry_last pre post s a hs hp
  · intro pre s post e hs hp
    rw [e]
    exact getAppVolumeLoop_first pre post s a.ID hs hp
  · intro hnd h
    obtain ⟨pre, s, post, e, hs, hp⟩ := exists_last_with_id sys a.ID h
    rw [e] at hnd ⊢
    rw [updateVolumesEntry_last pre post s a hs hp,
      getAppVolumeLoop_first pre post s a.ID hs
        (fun x hx => by rw [← hs]; exact not_mem_ids_of_nodup pre post s hnd x hx)]

set_option maxRecDepth 100000 in
/-- Witness of C20 on the example text, whose ids 5 and 12 are distinct: the entry
with the id 12 gets the Volume 75 from the merge and from `getAppVolume`. -/
theorem merge_last_lookup_first_witness :
    ((parseStatus exampleStatus).map App.ID).Nodup ∧
    (updateVolumesEntry (parseStatus exampleStatus) ⟨"12".toList, [], 0, 0⟩).Volume = 75 ∧
    (updateVolumesEntry (parseStatus exampleStatus) ⟨"12".toList, [], 0, 0⟩).Volume =
      getAppVolumeLoop "12".toList (parseStatus exampleStatus) :=
  ⟨by decide, by decide,
    (merge_last_lookup_first (parseStatus exampleStatus) ⟨"12".toList, [], 0, 0⟩).2.2.1
      (by decide) (by decide)⟩

/-! ## More on the status parser -/

theorem extractVolumeLoop_skips (pre rest : List Str)
    (hpre : ∀ p ∈ pre, HasSuffix p ['%'] = false ∨ Atoi (TrimSuffix p ['%']) = none) :
    extractVolumeLoop (pre ++ rest) = extractVolumeLoop rest := by
  induction pre with
  | nil => rfl
  | cons p ps ih =>
    simp only [List.cons_append, extractVolumeLoop]
    rcases hpre p (by simp) with h | h
    · simp only [h, Bool.false_eq_true, if_false]
      exact ih (fun x hx => hpre x (by simp [hx]))
    · simp only [h]
      split_ifs <;> exact ih (fun x hx => hpre x (by simp [hx]))

theorem extractVolumeLoop_none (toks : List Str)
    (h : ∀ p ∈ toks, HasSuffix p ['%'] = false ∨ Atoi (TrimSuffix p ['%']) = none) :
    extractVolumeLoop toks = -1 := by
  have := extractVolumeLoop_skips toks [] h
  simpa [extractVolumeLoop] using this

theorem extractVolumeLoop_first_parsed (pre post : List Str) (tok : Str) (n : Int)
    (hpre : ∀ p ∈ pre, HasSuffix p ['%'] = false ∨ Atoi (TrimSuffix p ['%']) = none)
    (htok : Atoi tok = some n) :
    extractVolumeLoop (pre ++ (tok ++ ['%']) :: post) = clampPercent n := by
  rw [extractVolumeLoop_skips pre _ hpre]
  exact extractVolumeLoop_first_percent [] post tok n (by simp) htok

set_option maxRecDepth 100000 in
/-- C16, as stated, fails: on a volume line whose first token ending in a percent
sign does not parse, the next such token is used; the block gets the Volume 55. -/
theorem extractVolume_uses_later_token :
    isVolumeLine mixedVolumeLine = true ∧
    Fields (TrimSpace mixedVolumeLine) =
      ["Volume:".toList, "front-left:".toList, "n/a%".toList, "/".toList, "55%".toList,
        "/".toList, "-15.58".toList, "dB".toList] ∧
    Atoi (TrimSuffix "n/a%".toList ['%']) = none ∧
    extractVolume (TrimSpace mixedVolumeLine) = 55 ∧
    (getAppsLines ["Sink Input #3".toList, mixedVolumeLine]).map App.Volume = [55] := by
  decide

/-- C16, amended: on a volume line the parser goes through the white-space separated
tokens that end in a percent sign, in order, and takes the first one whose integer
parse succeeds: the Volume of the block becomes that value clamped to the interval
from 0 to 100 and nothing else changes; when no such token parses, the line changes
nothing. -/
theorem getAppsStep_volume_tokens (st : ParseState) (l : Str) (hv : isVolumeLine l = true) :
    (∀ (pre post : List Str) (tok : Str) (n : Int),
      Fields (TrimSpace l) = pre ++ (tok ++ ['%']) :: post →
      (∀ p ∈ pre, HasSuffix p ['%'] = false ∨ Atoi (TrimSuffix p ['%']) = none) →
      Atoi tok = some n →
      getAppsStep st l = { st with current := { st.current with Volume := clampPercent n } }) ∧
    ((∀ p ∈ Fields (TrimSpace l), HasSuffix p ['%'] = false ∨ Atoi (TrimSuffix p ['%']) = none) →
      getAppsStep st l = st) := by
  unfold isVolumeLine at hv
  obtain ⟨h1, h2, h3⟩ := HasPrefix_volumeKey_exclusive _ hv
  constructor
  · intro pre post tok n hf hpre htok
    have he : extractVolume (TrimSpace l) = clampPercent n := by
      unfold extractVolume
      rw [hf]
      exact extractVolumeLoop_first_parsed pre post tok n hpre htok
    have hr := clampPercent_range n
    unfold getAppsStep
    simp only [h1, h2, h3, hv, Bool.false_eq_true, if_false, if_true, he]
    rw [if_pos (by omega), if_neg (by omega)]
  · intro h
    have he : extractVolume (TrimSpace l) = -1 := extractVolumeLoop_none _ h
    unfold getAppsStep
    simp only [h1, h2, h3, hv, Bool.false_eq_true, if_false, if_true, he]
    rfl

set_option maxRecDepth 100000 in
/-- Witness of the amended C16 on the line whose first percent token does not parse. -/
theorem getAppsStep_volume_tokens_witness :
    isVolumeLine mixedVolumeLine = true ∧
    getAppsStep ⟨[], ⟨"3".toList, [], 0, 0⟩⟩ mixedVolumeLine =
      ⟨[], ⟨"3".toList, [], clampPercent 55, 0⟩⟩ :=
  ⟨by decide,
    (getAppsStep_volume_tokens ⟨[], ⟨"3".toList, [], 0, 0⟩⟩ mixedVolumeLine (by decide)).1
      ["Volume:".toList, "front-left:".toList, "n/a%".toList, "/".toList] ["/".toList,
        "-15.58".toList, "dB".toList] "55".toList 55 (by decide) (by decide) (by decide)⟩

/-! ### Trimming -/

theorem dropWhileEnd_concat_pos (p : Char → Bool) (l : Str) (x : Char) (h : p x = true) :
    dropWhileEnd p (l ++ [x]) = dropWhileEnd p l := by
  simp [dropWhileEnd, List.dropWhile, h]

theorem dropWhileEnd_concat_neg (p : Char → Bool) (l : Str) (x : Char) (h : p x = false) :
    dropWhileEnd p (l ++ [x]) = l ++ [x] := by
  simp [dropWhileEnd, List.dropWhile, h]

theorem dropWhileEnd_cons_neg (p : Char → Bool) (c : Char) (t : Str) (h : p c = false) :
    dropWhileEnd p (c :: t) = c :: dropWhileEnd p t := by
  induction t using List.reverseRecOn with
  | nil => simpa [dropWhileEnd] using dropWhileEnd_concat_neg p [] c h
  | append_singleton t x ih =>
    cases hx : p x with
    | true =>
      rw [dropWhileEnd_concat_pos p t x hx, ← List.cons_append,
        dropWhileEnd_concat_pos p (c :: t) x hx, ih]
    | false =>
      rw [dropWhileEnd_concat_neg p t x hx, ← List.cons_append,
        dropWhileEnd_concat_neg p (c :: t) x hx]

theorem dropWhile_head_not (p : Char → Bool) (s : Str) (c : Char)
    (h : (s.dropWhile p).head? = some c) : p c = false := by
  induction s with
  | nil => simp at h
  | cons x xs ih =>
    cases hx : p x with
    | true =>
      rw [List.dropWhile_cons_of_pos hx] at h
      exact ih h
    | false =>
      rw [List.dropWhile_cons_of_neg (by simp [hx])] at h
      simp only [List.head?_cons, Option.some.injEq] at h
      rw [← h]; exact hx

theorem dropWhileEnd_last_not (p : Char → Bool) (s : Str) (c : Char)
    (h : (dropWhileEnd p s).getLast? = some c) : p c = false := by
  unfold dropWhileEnd at h
  rw [List.getLast?_reverse] at h
  exact dropWhile_head_not p s.reverse c h

theorem dropWhileEnd_eq_self (p : Char → Bool) (s : Str)
    (h : ∀ c, s.getLast? = some c → p c = false) : dropWhileEnd p s = s := by
  induction s using List.reverseRecOn with
  | nil => rfl
  | append_singleton t x _ => exact dropWhileEnd_concat_neg p t x (h x (by simp))

theorem dropWhile_eq_self (p : Char → Bool) (s : Str)
    (h : ∀ c, s.head? = some c → p c = false) : s.dropWhile p = s := by
  cases s with
  | nil => rfl
  | cons x xs => exact List.dropWhile_cons_of_neg (by simp [h x rfl])

theorem dropWhileEnd_head (p : Char → Bool) (s : Str) (c : Char)
    (hs : ∀ x, s.head? = some x → p x = false) (h : (dropWhileEnd p s).head? = some c) :
    p c = false := by
  cases s with
  | nil => simp [dropWhileEnd] at h
  | cons x xs =>
    have hx := hs x rfl
    rw [dropWhileEnd_cons_neg p x xs hx] at h
    simp only [List.head?_cons, Option.some.injEq] at h
    rw [← h]; exact hx

theorem Trim_ends (s cutset : Str) :
    (∀ c, (Trim s cutset).head? = some c → cutset.contains c = false) ∧
    (∀ c, (Trim s cutset).getLast? = some c → cutset.contains c = false) := by
  unfold Trim
  exact ⟨fun c h => dropWhileEnd_head _ _ c (fun x hx => dropWhile_head_not _ s x hx) h,
    fun c h => dropWhileEnd_last_not _ _ c h⟩

theorem valueCutset_contains (c : Char) :
    valueCutset.contains c = false ↔ c ≠ Char.ofNat 34 ∧ c ≠ ' ' := by
  unfold valueCutset
  simp only [List.contains_cons, List.contains_nil, Bool.or_false, Bool.or_eq_false_iff,
    beq_eq_false_iff_ne, ne_eq]

theorem extractValue_of_split (pre post : Str) (h : '=' ∉ pre) :
    extractValue (pre ++ '=' :: post) = Trim post valueCutset := by
  have hi : (pre ++ '=' :: post).indexOf '=' = pre.length := by
    rw [List.indexOf_append_of_not_mem h, List.indexOf_cons_self]
    rfl
  unfold extractValue
  simp only [hi]
  rw [if_pos (by simp)]
  simp [valueCutset]

theorem extractValue_of_not_mem (line : Str) (h : '=' ∉ line) : extractValue line = [] := by
  unfold extractValue
  simp only [List.indexOf_of_not_mem h]
  rw [if_neg (by omega)]

theorem exists_first_split (line : Str) (h : '=' ∈ line) :
    ∃ pre post, line = pre ++ '=' :: post ∧ '=' ∉ pre := by
  induction line with
  | nil => simp at h
  | cons c cs ih =>
    by_cases hc : c = '='
    · exact ⟨[], cs, by rw [hc]; rfl, by simp⟩
    · have : '=' ∈ cs := by
        rcases List.mem_cons.mp h with e | e
        · exact absurd e.symm hc
        · exact e
      obtain ⟨pre, post, e, hp⟩ := ih this
      refine ⟨c :: pre, post, by rw [e]; rfl, ?_⟩
      intro hm
      rcases List.mem_cons.mp hm with e2 | e2
      · exact hc e2.symm
      · exact hp e2

theorem Trim_quoted (value : Str)
    (hh : ∀ c, value.head? = some c → valueCutset.contains c = false)
    (hl : ∀ c, value.getLast? = some c → valueCutset.contains c = false) :
    Trim (' ' :: Char.ofNat 34 :: (value ++ [Char.ofNat 34])) valueCutset = value := by
  have hq : valueCutset.contains (Char.ofNat 34) = true := by decide
  have hsp : valueCutset.contains ' ' = true := by decide
  unfold Trim
  rw [List.dropWhile_cons_of_pos hsp, List.dropWhile_cons_of_pos hq]
  cases value with
  | nil => simp [List.dropWhile, hq, dropWhileEnd]
  | cons x xs =>
    have hx := hh x rfl
    rw [List.cons_append, List.dropWhile_cons_of_neg (by rw [hx]; simp), ← List.cons_append,
      dropWhileEnd_concat_pos _ _ _ hq]
    exact dropWhileEnd_eq_self _ _ hl

set_option maxRecDepth 100000 in
/-- C17, as stated, fails: a tab between the equals sign and the value is kept, so the
result starts with a white-space character; and a value that itself starts with a
space or ends with a double quote loses them. -/
theorem extractValue_keeps_tab :
    extractValue tabbedNameLine = "\t\"Firefox".toList ∧
    ((extractValue tabbedNameLine).head?.map isSpace = some true) ∧
    quotedNameLine = "media.name".toList ++ " = \"".toList ++ " Song \"Live\"".toList
      ++ "\"".toList ∧
    extractValue quotedNameLine = "Song \"Live".toList := by
  decide

/-- C17, amended: for a line containing an equals sign, `extractValue` returns the text
after the first one with the double quotes and spaces at its two ends removed, so
that the result neither starts nor ends with a double quote or a space; for a line of
the form key = "value" whose value neither starts nor ends with a double quote or a
space it is the value; for a line without an equals sign it is empty. -/
theorem extractValue_spec (line : Str) :
    ('=' ∈ line →
      ∃ pre post, line = pre ++ '=' :: post ∧ '=' ∉ pre ∧
        extractValue line = Trim post valueCutset ∧
        (∀ c, (extractValue line).head? = some c → c ≠ Char.ofNat 34 ∧ c ≠ ' ') ∧
        (∀ c, (extractValue line).getLast? = some c → c ≠ Char.ofNat 34 ∧ c ≠ ' ')) ∧
    ('=' ∉ line → extractValue line = []) ∧
    (∀ key value : Str, '=' ∉ key →
      (∀ c, value.head? = some c → c ≠ Char.ofNat 34 ∧ c ≠ ' ') →
      (∀ c, value.getLast? = some c → c ≠ Char.ofNat 34 ∧ c ≠ ' ') →
      extractValue (key ++ " = ".toList ++ [Char.ofNat 34] ++ value ++ [Char.ofNat 34]) =
        value) := by
  refine ⟨?_, extractValue_of_not_mem line, ?_⟩
  · intro h
    obtain ⟨pre, post, e, hp⟩ := exists_first_split line h
    have hv := extractValue_of_split pre post hp
    refine ⟨pre, post, e, hp, by rw [e, hv], ?_, ?_⟩
    · intro c hc
      rw [e, hv] at hc
      exact (valueCutset_contains c).mp ((Trim_ends post valueCutset).1 c hc)
    · intro c hc
      rw [e, hv] at hc
      exact (valueCutset_contains c).mp ((Trim_ends post valueCutset).2 c hc)
  · intro key value hk hh hl
    have hkey : '=' ∉ key ++ [' '] := by
      intro hm
      rcases List.mem_append.mp hm with e | e
      · exact hk e
      · simp at e
    have e : key ++ " = ".toList ++ [Char.ofNat 34] ++ value ++ [Char.ofNat 34] =
        (key ++ [' ']) ++ '=' :: (' ' :: Char.ofNat 34 :: (value ++ [Char.ofNat 34])) := by
      simp
    rw [e, extractValue_of_split _ _ hkey]
    exact Trim_quoted value (fun c hc => (valueCutset_contains c).mpr (hh c hc))
      (fun c hc => (valueCutset_contains c).mpr (hl c hc))

set_option maxRecDepth 100000 in
/-- Witness of the amended C17 on an application-name line. -/
theorem extractValue_spec_witness :
    extractValue "application.name = \"Firefox\"".toList = "Firefox".toList ∧
    extractValue "balance 0.00".toList = [] ∧
    extractValue ("application.name".toList ++ " = ".toList ++ [Char.ofNat 34] ++
      "Firefox".toList ++ [Char.ofNat 34]) = "Firefox".toList :=
  ⟨by decide,
    (extractValue_spec "balance 0.00".toList).2.1 (by decide),
    (extractValue_spec []).2.2 "application.name".toList "Firefox".toList (by decide)
      (by decide) (by decide)⟩

/-! ### The ids of the parsed streams -/

theorem getAppsStep_flush_ids (st : ParseState) (l : Str) :
    (getAppsStep st l).flush.map App.ID =
      st.flush.map App.ID ++ (if opensStream l = true then [lineId l] else []) := by
  cases hs : isBlockStart l with
  | true =>
    have hs2 := hs
    unfold isBlockStart at hs2
    have e : getAppsStep st l =
        { apps := st.flush, current := { App.zero with ID := lineId l } } := by
      unfold getAppsStep ParseState.flush lineId
      simp only [hs2, if_true]
    rw [e]
    by_cases hid : lineId l = []
    · simp [ParseState.flush, opensStream, hs, hid]
    · simp [ParseState.flush, opensStream, hs, hid]
  | false =>
    have hid := getAppsStep_ID_of_not_start st l hs
    have happs : (getAppsStep st l).apps = st.apps := by
      rw [getAppsStep_of_not_start st l hs]
    have ho : opensStream l = false := by simp [opensStream, hs]
    simp only [ho, Bool.false_eq_true, if_false, List.append_nil]
    unfold ParseState.flush
    rw [hid, happs]
    split_ifs
    · simp [hid]
    · rfl

theorem foldl_getAppsStep_flush_ids (ls : List Str) (st : ParseState) :
    (ls.foldl getAppsStep st).flush.map App.ID =
      st.flush.map App.ID ++ (ls.filter opensStream).map lineId := by
  induction ls generalizing st with
  | nil => simp
  | cons l ls ih =>
    rw [List.foldl_cons, ih, getAppsStep_flush_ids, List.append_assoc]
    congr 1
    cases h : opensStream l <;> simp [List.filter, h]

theorem getAppsLines_ids (ls : List Str) :
    (getAppsLines ls).map App.ID = (ls.filter opensStream).map lineId := by
  have := foldl_getAppsStep_flush_ids ls { apps := [], current := App.zero }
  simpa [getAppsLines, ParseState.flush, App.zero] using this

theorem foldl_getAppsStep_preamble (pre : List Str) (h : ∀ l ∈ pre, isBlockStart l = false) :
    (pre.foldl getAppsStep { apps := [], current := App.zero }).flush = [] := by
  rw [foldl_getAppsStep_attrs pre _ h]
  have hid := foldl_getAppsStep_ID pre { apps := [], current := App.zero } h
  have hid2 : (pre.foldl getAppsStep { apps := [], current := App.zero }).current.ID = [] := hid
  unfold ParseState.flush
  dsimp only
  rw [if_neg (by rw [hid2]; simp)]

/-- C19: every stream returned by the parser has a non-empty ID; the IDs of the
returned streams are, in order, the texts after the marker on the trimmed lines that
start with the marker and have text after it, so there are as many streams as such
lines; and when the lines are some lines that open no block followed by blocks, the
result is made of the streams of the blocks with a non-empty id alone: the lines
before the first block start and the lines of a block without id are discarded. -/
theorem parseStatus_ids (text : Str) :
    (∀ a ∈ parseStatus text, a.ID ≠ []) ∧
    (parseStatus text).map App.ID =
      ((Split (Char.ofNat 10) text).filter opensStream).map lineId ∧
    (parseStatus text).length = ((Split (Char.ofNat 10) text).filter opensStream).length ∧
    (∀ (pre : List Str) (bs : List Block),
      (∀ l ∈ pre, isBlockStart l = false) → (∀ b ∈ bs, b.WellFormed) →
      Split (Char.ofNat 10) text = pre ++ bs.flatMap Block.lines →
      parseStatus text = (bs.filter (fun b => decide (b.id ≠ []))).map Block.stream) := by
  have hids := getAppsLines_ids (Split (Char.ofNat 10) text)
  refine ⟨?_, hids, ?_, ?_⟩
  · intro a ha
    have hm : a.ID ∈ (parseStatus text).map App.ID := List.mem_map_of_mem App.ID ha
    unfold parseStatus at hm
    rw [hids] at hm
    obtain ⟨l, hl, e⟩ := List.mem_map.mp hm
    have ho := (List.mem_filter.mp hl).2
    rw [← e]
    simp only [opensStream, Bool.and_eq_true, decide_eq_true_eq] at ho
    exact ho.2
  · have := congrArg List.length hids
    simpa [parseStatus] using this
  · intro pre bs hpre hbs hsplit
    unfold parseStatus getAppsLines
    rw [hsplit, List.foldl_append]
    have h1 := flush_foldl_blocks bs (pre.foldl getAppsStep { apps := [], current := App.zero })
      hbs
    rw [foldl_getAppsStep_preamble pre hpre, List.nil_append] at h1
    exact h1

set_option maxRecDepth 100000 in
/-- Witness of C19: a text with a line before the first block, a block without id and
a block with the id 7. -/
theorem parseStatus_ids_witness :
    Split (Char.ofNat 10) strayStatus = ["x = 1".toList] ++ strayBlocks.flatMap Block.lines ∧
    parseStatus strayStatus = [⟨"7".toList, [], 20, 0⟩] ∧
    parseStatus strayStatus =
      (strayBlocks.filter (fun b => decide (b.id ≠ []))).map Block.stream :=
  ⟨by decide, by decide,
    (parseStatus_ids strayStatus).2.2.2 ["x = 1".toList] strayBlocks
      (by decide) (by decide) (by decide)⟩

/-! ## Properties of the renderer -/

theorem join_replicate_singleton (c : Char) (n : Nat) :
    (List.replicate n [c]).flatten = List.replicate n c := by
  induction n with
  | zero => rfl
  | succ n ih => simp [List.replicate_succ, ih]

theorem allocates_of_le (mem : Memory) (n k : Nat) (hmem : ∀ i : Nat, i ≤ k → mem i = true)
    (hk : k ≤ 2 ^ 48) (hn : n ≤ k) : allocates mem n = true := by
  unfold allocates
  simp only [Bool.or_eq_true, Bool.and_eq_true, decide_eq_true_eq]
  exact Or.inr ⟨by omega, hmem n hn⟩

theorem allocates_of_large (mem : Memory) (n : Nat) (h : 2 ^ 48 < n) :
    allocates mem n = false := by
  unfold allocates
  simp only [Bool.or_eq_false_iff, Bool.and_eq_false_imp, decide_eq_false_iff_not,
    decide_eq_true_eq]
  exact ⟨by omega, fun h2 => by omega⟩

theorem Repeat_singleton (mem : Memory) (c : Char) (count : Int) (k : Nat) (h0 : 0 ≤ count)
    (hmem : ∀ i : Nat, i ≤ k → mem i = true) (hk : k ≤ 2 ^ 48)
    (h1 : (utf8Encode [c]).length * count.toNat ≤ k) :
    Repeat mem [c] count = some (List.replicate count.toNat c) := by
  have h2 : ((utf8Encode [c]).length : Int) * count < 2 ^ 63 := by
    have : (((utf8Encode [c]).length * count.toNat : Nat) : Int) ≤ 2 ^ 48 := by
      exact_mod_cast le_trans h1 hk
    rw [Nat.cast_mul, Int.toNat_of_nonneg h0] at this
    omega
  unfold Repeat
  rw [if_neg (by omega), if_neg (by omega), if_pos (allocates_of_le mem _ k hmem hk h1),
    join_replicate_singleton]

theorem Repeat_of_neg (mem : Memory) (s : Str) (count : Int) (h : count < 0) :
    Repeat mem s count = none := by
  unfold Repeat
  rw [if_pos h]

theorem Repeat_of_large (mem : Memory) (s : Str) (count : Int)
    (h : 2 ^ 48 < (utf8Encode s).length * count.toNat) : Repeat mem s count = none := by
  unfold Repeat
  rw [allocates_of_large mem _ h]
  split_ifs <;> first | rfl | contradiction

theorem utf8Encode_glyph : (utf8Encode [Char.ofNat 9617]).length = 3 := by decide

theorem utf8Encode_blank : (utf8Encode [' ']).length = 1 := by decide

theorem utf8Encode_append (a b : Str) : utf8Encode (a ++ b) = utf8Encode a ++ utf8Encode b := by
  simp [utf8Encode]

theorem utf8Encode_replicate_length (c : Char) (n : Nat) :
    (utf8Encode (List.replicate n c)).length = n * (utf8Encode [c]).length := by
  induction n with
  | zero => simp [utf8Encode]
  | succ n ih =>
    rw [List.replicate_succ, ← List.singleton_append, utf8Encode_append, List.length_append, ih]
    ring

theorem filled_bounds (v B : Int) (hv0 : 0 ≤ v) (hv1 : v ≤ 100) (hB : 0 ≤ B) :
    0 ≤ v * B / 100 ∧ v * B / 100 ≤ B := by
  have h1 : 0 ≤ v * B := Int.mul_nonneg hv0 hB
  have h2 : v * B ≤ 100 * B := Int.mul_le_mul_of_nonneg_right hv1 hB
  constructor
  · exact Int.ediv_nonneg h1 (by omega)
  · have := Int.ediv_le_ediv (by omega : (0 : Int) < 100) h2
    rwa [Int.mul_ediv_cancel_left _ (by omega : (100 : Int) ≠ 0)] at this

theorem getVolumeBar_of_filled_none (mem : Memory) (v w : Int)
    (h : Repeat mem [Char.ofNat 9617]
      (Int.tdiv (wrapInt (v * (if wrapInt (w - 25) < 10 then 10 else wrapInt (w - 25)))) 100)
        = none) :
    getVolumeBar mem v w = none := by
  unfold getVolumeBar
  simp only [h]

/-- C14, as stated, fails for very large widths, on every machine: at the width 2^62
and the display volume 100 the product `v * barLength` wraps around to -2500, the
filled count is -25, and `strings.Repeat` panics; at the width 2^50 the filled part
would have more than 2^48 bytes, which the runtime refuses to allocate. -/
theorem getVolumeBar_overflow :
    wrapInt (100 * max 10 (2 ^ 62 - 25)) = -2500 ∧
    Int.tdiv (wrapInt (100 * max 10 (2 ^ 62 - 25))) 100 = -25 ∧
    (∀ mem : Memory, getVolumeBar mem 100 (2 ^ 62) = none) ∧
    (∀ mem : Memory, getVolumeBar mem 100 (2 ^ 50) = none) := by
  refine ⟨by decide, by decide, ?_, ?_⟩
  · intro mem
    apply getVolumeBar_of_filled_none
    have e : Int.tdiv (wrapInt (100 * (if wrapInt (2 ^ 62 - 25) < 10 then 10
        else wrapInt (2 ^ 62 - 25)))) 100 = -25 := by decide
    rw [e]
    exact Repeat_of_neg mem _ _ (by decide)
  · intro mem
    apply getVolumeBar_of_filled_none
    have e : Int.tdiv (wrapInt (100 * (if wrapInt (2 ^ 50 - 25) < 10 then 10
        else wrapInt (2 ^ 50 - 25)))) 100 = 2 ^ 50 - 25 := by decide
    rw [e]
    exact Repeat_of_large mem _ _ (by rw [utf8Encode_glyph]; decide)

/-- C14, amended: for every display volume `v` between 0 and 100 and every width `w`
for which `w - 25` does not leave the range of `int` and the strings of the bar can be
allocated (the machine gives up to `3 * barWidth + 2` bytes, for
`barWidth = max(10, w - 25)`, and these are at most the 2^48 bytes of one allocation),
the bar is an opening bracket, `barWidth` cells and a closing bracket; the first
`v * barWidth / 100` cells are the filled glyph and the others are spaces, and the
filled count lies between 0 and `barWidth`. -/
theorem getVolumeBar_spec (mem : Memory) (v w : Int) (hv0 : 0 ≤ v) (hv1 : v ≤ 100)
    (hw0 : -2 ^ 63 + 25 ≤ w) (hlim : 3 * max 10 (w - 25) + 2 ≤ 2 ^ 48)
    (hmem : ∀ n : Nat, (n : Int) ≤ 3 * max 10 (w - 25) + 2 → mem n = true) :
    getVolumeBar mem v w =
      some (['['] ++ List.replicate (v * max 10 (w - 25) / 100).toNat (Char.ofNat 9617) ++
        List.replicate (max 10 (w - 25) - v * max 10 (w - 25) / 100).toNat ' ' ++ [']']) ∧
    (0 ≤ v * max 10 (w - 25) / 100 ∧ v * max 10 (w - 25) / 100 ≤ max 10 (w - 25)) ∧
    (v * max 10 (w - 25) / 100).toNat +
      (max 10 (w - 25) - v * max 10 (w - 25) / 100).toNat = (max 10 (w - 25)).toNat := by
  have hB10' : (10 : Int) ≤ max 10 (w - 25) := le_max_left _ _
  have hw1 : w - 25 < 2 ^ 63 := by
    have : w - 25 ≤ max 10 (w - 25) := le_max_right _ _
    omega
  have hB : (if wrapInt (w - 25) < 10 then (10 : Int) else wrapInt (w - 25)) = max 10 (w - 25) := by
    rw [wrapInt_of_range (w - 25) (by omega) hw1, max_def]
    split_ifs <;> omega
  generalize hBdef : max 10 (w - 25) = B at hB hlim hmem hB10' ⊢
  have hvB0 : 0 ≤ v * B := Int.mul_nonneg hv0 (by omega)
  have hvB1 : v * B ≤ 100 * B := Int.mul_le_mul_of_nonneg_right hv1 (by omega)
  obtain ⟨hf0, hf1⟩ := filled_bounds v B hv0 hv1 (by omega)
  have hfill : Int.tdiv (wrapInt (v * B)) 100 = v * B / 100 := by
    rw [wrapInt_of_range (v * B) (by omega) (by omega)]
    exact Int.tdiv_eq_ediv hvB0 (by omega)
  refine ⟨?_, ⟨hf0, hf1⟩, by omega⟩
  have hk : (3 * B + 2).toNat ≤ 2 ^ 48 := by omega
  have hmemk : ∀ i : Nat, i ≤ (3 * B + 2).toNat → mem i = true :=
    fun i hi => hmem i (by omega)
  have hlen1 : (utf8Encode (List.replicate (v * B / 100).toNat (Char.ofNat 9617))).length =
      (v * B / 100).toNat * 3 := by rw [utf8Encode_replicate_length, utf8Encode_glyph]
  have hlen2 : (utf8Encode (List.replicate (B - v * B / 100).toNat ' ')).length =
      (B - v * B / 100).toNat * 1 := by rw [utf8Encode_replicate_length, utf8Encode_blank]
  have hc1 : concatStrings mem [List.replicate (v * B / 100).toNat (Char.ofNat 9617),
      List.replicate (B - v * B / 100).toNat ' '] =
      some (List.replicate (v * B / 100).toNat (Char.ofNat 9617) ++
        List.replicate (B - v * B / 100).toNat ' ') := by
    unfold concatStrings
    simp only [List.map_cons, List.map_nil, List.sum_cons, List.sum_nil, hlen1, hlen2]
    rw [if_pos (allocates_of_le mem _ _ hmemk hk (by omega))]
    simp
  have hc2 : concatStrings mem [['['], List.replicate (v * B / 100).toNat (Char.ofNat 9617) ++
      List.replicate (B - v * B / 100).toNat ' ', [']']] =
      some (['['] ++ List.replicate (v * B / 100).toNat (Char.ofNat 9617) ++
        List.replicate (B - v * B / 100).toNat ' ' ++ [']']) := by
    have h3 : (utf8Encode ['[']).length = 1 := by decide
    have h4 : (utf8Encode [']']).length = 1 := by decide
    unfold concatStrings
    simp only [List.map_cons, List.map_nil, List.sum_cons, List.sum_nil, utf8Encode_append,
      List.length_append, hlen1, hlen2, h3, h4]
    rw [if_pos (allocates_of_le mem _ _ hmemk hk (by omega))]
    simp
  unfold getVolumeBar
  simp only [hB, hfill]
  rw [Repeat_singleton mem _ _ _ hf0 hmemk hk (by rw [utf8Encode_glyph]; omega),
    wrapInt_of_range (B - v * B / 100) (by omega) (by omega),
    Repeat_singleton mem _ _ _ (by omega) hmemk hk (by rw [utf8Encode_blank]; omega)]
  simp only [hc1, hc2]

set_option maxRecDepth 100000 in
/-- Witness of the amended C14: on a machine that gives up to a mebibyte, the bar of the
display volume 40 at the width 45 has 20 cells, 8 of them filled. -/
theorem getVolumeBar_spec_witness :
    getVolumeBar (fun n => decide (n ≤ 2 ^ 20)) 40 45 =
      some (['['] ++ List.replicate 8 (Char.ofNat 9617) ++ List.replicate 12 ' ' ++ [']']) :=
  (getVolumeBar_spec (fun n => decide (n ≤ 2 ^ 20)) 40 45 (by decide) (by decide) (by decide)
    (by decide) (fun n hn => by
      have h : (n : Int) ≤ 62 := hn
      exact decide_eq_true (by omega))).1

theorem utf8Encode_ascii (s : Str) (h : ∀ c ∈ s, c.toNat < 128) :
    utf8Encode s = s.map Char.toNat := by
  induction s with
  | nil => rfl
  | cons c cs ih =>
    have hc := h c (by simp)
    have e : utf8EncodeChar c = [c.toNat] := by
      unfold utf8EncodeChar
      simp only [hc, if_true]
    simp only [utf8Encode, List.flatMap_cons, List.map_cons, e, List.singleton_append]
    exact congrArg _ (ih (fun x hx => h x (by simp [hx])))

/-- For a name made of ASCII characters the row shows the name itself when it has at
most 15 characters, and its first 14 characters followed by the ellipsis otherwise. -/
theorem viewName_ascii (name : Str) (h : ∀ c ∈ name, c.toNat < 128) :
    viewName name =
      if name.length ≤ 15 then utf8Encode name
      else utf8Encode (name.take 14) ++ utf8Encode [Char.ofNat 8230] := by
  have e := utf8Encode_ascii name h
  have e2 := utf8Encode_ascii (name.take 14) (fun c hc => h c (List.mem_of_mem_take hc))
  unfold viewName
  simp only [e, e2, List.length_map, List.map_take]
  split_ifs <;> first | rfl | omega

set_option maxRecDepth 100000 in
/-- C15 on names that are not ASCII: the name "Björk – Jóga" has 12 characters, but 16
bytes, and is shown cut after 10 characters; the name "Zoë Kravitz – Demo" is shown
cut after 12 characters and the first byte of the dash, which is no character. -/
theorem viewName_cuts_bytes :
    "Björk – Jóga".toList.length = 12 ∧
    viewName "Björk – Jóga".toList = utf8Encode "Björk – Jó…".toList ∧
    viewName "Zoë Kravitz – Demo".toList =
      utf8Encode "Zoë Kravitz ".toList ++ [226] ++ utf8Encode "…".toList ∧
    utf8Encode "–".toList = [226, 128, 147] := by
  decide

/-! ## The daemon as a store -/

theorem TrimSpace_eq_self (s : Str) (hh : ∀ c, s.head? = some c → isSpace c = false)
    (hl : ∀ c, s.getLast? = some c → isSpace c = false) : TrimSpace s = s := by
  unfold TrimSpace
  rw [dropWhile_eq_self isSpace s hh]
  exact dropWhileEnd_eq_self isSpace s hl

theorem fieldsLoop_cons_nonspace (acc : Str) (c : Char) (r : Str) (h : isSpace c = false) :
    fieldsLoop acc (c :: r) = fieldsLoop (c :: acc) r := by
  simp [fieldsLoop, h]

theorem fieldsLoop_token (t rest acc : Str) (h : ∀ c ∈ t, isSpace c = false) :
    fieldsLoop acc (t ++ rest) = fieldsLoop (t.reverse ++ acc) rest := by
  induction t generalizing acc with
  | nil => rfl
  | cons c cs ih =>
    have hc := h c (by simp)
    have e := ih (c :: acc) (fun x hx => h x (by simp [hx]))
    rw [List.cons_append, fieldsLoop_cons_nonspace acc c _ hc, e]
    simp

theorem Fields_two_tokens (t1 t2 : Str) (h1 : ∀ c ∈ t1, isSpace c = false)
    (h2 : ∀ c ∈ t2, isSpace c = false) (hne1 : t1 ≠ []) (hne2 : t2 ≠ []) :
    Fields (t1 ++ ' ' :: t2) = [t1, t2] := by
  have hsp : isSpace ' ' = true := by decide
  have e1 : (t1.reverse ++ ([] : Str)).isEmpty = false := by
    cases t1 with
    | nil => exact absurd rfl hne1
    | cons c cs => simp
  have e2 : (t2.reverse ++ ([] : Str)).isEmpty = false := by
    cases t2 with
    | nil => exact absurd rfl hne2
    | cons c cs => simp
  unfold Fields
  rw [fieldsLoop_token t1 _ [] h1]
  simp only [fieldsLoop, hsp, if_true, e1, Bool.false_eq_true, if_false]
  have := fieldsLoop_token t2 [] [] h2
  rw [List.append_nil] at this
  rw [this]
  simp only [fieldsLoop, e2, Bool.false_eq_true, if_false]
  simp

theorem toDigitsCore_digits (fuel n : Nat) (ds : Str)
    (hds : ∀ c ∈ ds, 48 ≤ c.toNat ∧ c.toNat ≤ 57) :
    ∀ c ∈ Nat.toDigitsCore 10 fuel n ds, 48 ≤ c.toNat ∧ c.toNat ≤ 57 := by
  induction fuel generalizing n ds with
  | zero => simpa [Nat.toDigitsCore] using hds
  | succ fuel ih =>
    obtain ⟨h1, h2, _⟩ := digitChar_toNat (n % 10) (Nat.mod_lt _ (by decide))
    have hds2 : ∀ c ∈ Nat.digitChar (n % 10) :: ds, 48 ≤ c.toNat ∧ c.toNat ≤ 57 := by
      intro c hc
      rcases List.mem_cons.mp hc with e | e
      · rw [e]; exact ⟨h1, h2⟩
      · exact hds c e
    unfold Nat.toDigitsCore
    simp only
    split_ifs
    · exact hds2
    · exact ih (n / 10) _ hds2

theorem toDigits_digits (n : Nat) : ∀ c ∈ Nat.toDigits 10 n, 48 ≤ c.toNat ∧ c.toNat ≤ 57 :=
  toDigitsCore_digits (n + 1) n [] (by simp)

theorem toDigits_ne_nil (n : Nat) : Nat.toDigits 10 n ≠ [] := by
  unfold Nat.toDigits Nat.toDigitsCore
  simp only
  split_ifs
  · simp
  · intro h
    have hl := congrArg List.length h
    rw [Nat.toDigitsCore_lens_eq] at hl
    simp at hl

theorem isSpace_of_toNat_ge (c : Char) (h : 33 ≤ c.toNat) (h2 : c.toNat ≤ 126) :
    isSpace c = false := by
  unfold isSpace
  simp only [Bool.or_eq_false_iff, Bool.and_eq_false_imp, decide_eq_true_eq, beq_eq_false_iff_ne,
    ne_eq, decide_eq_false_iff_not, not_le]
  omega

theorem TrimSpace_cons_space (c : Char) (r : Str) (h : isSpace c = true) :
    TrimSpace (c :: r) = TrimSpace r := by
  unfold TrimSpace
  rw [List.dropWhile_cons_of_pos h]

theorem storeLine_trim (n : Nat) :
    TrimSpace (Char.ofNat 9 :: (volumeKey ++ ' ' :: (Nat.toDigits 10 n ++ ['%']))) =
      volumeKey ++ ' ' :: (Nat.toDigits 10 n ++ ['%']) := by
  rw [TrimSpace_cons_space _ _ (by decide)]
  apply TrimSpace_eq_self
  · intro c hc
    have : c = 'V' := by
      simp [volumeKey] at hc
      exact hc.symm
    rw [this]; decide
  · intro c hc
    have : c = '%' := by
      have e : volumeKey ++ ' ' :: (Nat.toDigits 10 n ++ ['%']) =
          (volumeKey ++ ' ' :: Nat.toDigits 10 n) ++ ['%'] := by simp
      rw [e, List.getLast?_append] at hc
      simp at hc
      exact hc.symm
    rw [this]; decide

theorem isSpace_digit (c : Char) (h : 48 ≤ c.toNat ∧ c.toNat ≤ 57) : isSpace c = false :=
  isSpace_of_toNat_ge c (by omega) (by omega)

theorem storeLine_statesPercent (n : Nat) (hn : n < 2 ^ 63) :
    isVolumeLine (Char.ofNat 9 :: (volumeKey ++ ' ' :: (Nat.toDigits 10 n ++ ['%']))) = true ∧
    StatesPercent (Char.ofNat 9 :: (volumeKey ++ ' ' :: (Nat.toDigits 10 n ++ ['%']))) n := by
  constructor
  · unfold isVolumeLine
    rw [storeLine_trim]
    exact HasPrefix_append _ _
  · refine ⟨[volumeKey], Nat.toDigits 10 n, [], ?_, by decide, Atoi_toDigits n hn⟩
    rw [storeLine_trim]
    apply Fields_two_tokens
    · decide
    · intro c hc
      rcases List.mem_append.mp hc with h | h
      · exact isSpace_digit c (toDigits_digits n c h)
      · rw [List.mem_singleton.mp h]; decide
    · decide
    · simp

theorem storeBlock_wellFormed (e : Str × Nat)
    (hid : e.1 ≠ [] ∧ ∀ ch ∈ e.1, isSpace ch = false) :
    (storeBlock e).WellFormed ∧ (storeBlock e).id = e.1 := by
  have htrim : TrimSpace (sinkInputMarker ++ e.1) = sinkInputMarker ++ e.1 := by
    apply TrimSpace_eq_self
    · intro c hc
      have : c = 'S' := by
        simp [sinkInputMarker] at hc
        exact hc.symm
      rw [this]; decide
    · intro c hc
      rw [List.getLast?_append] at hc
      cases hl : e.1.getLast? with
      | none => exact absurd (List.getLast?_eq_none_iff.mp hl) hid.1
      | some x =>
        rw [hl] at hc
        simp only [Option.or, Option.some.injEq] at hc
        rw [← hc]
        exact hid.2 x (List.mem_of_getLast?_eq_some hl)
  have hnl : isSpace (Char.ofNat 10) = true := by decide
  refine ⟨⟨?_, ?_, ?_⟩, ?_⟩
  · show HasPrefix (TrimSpace (sinkInputMarker ++ e.1)) sinkInputMarker = true
    rw [htrim]; exact HasPrefix_append _ _
  · intro l hl
    simp only [storeBlock, List.mem_singleton] at hl
    rw [hl]
    have hv := (storeLine_statesPercent 0 (by decide)).1
    have hv2 : isVolumeLine (Char.ofNat 9 :: (volumeKey ++ ' ' ::
        (Nat.toDigits 10 e.2 ++ ['%']))) = true := by
      unfold isVolumeLine
      rw [storeLine_trim]
      exact HasPrefix_append _ _
    exact (HasPrefix_volumeKey_exclusive _ hv2).1
  · intro l hl hmem
    simp only [Block.lines, storeBlock, List.mem_cons, List.mem_singleton, List.not_mem_nil,
      or_false] at hl
    rcases hl with hl | hl
    · rw [hl] at hmem
      rcases List.mem_append.mp hmem with h | h
      · revert h; decide
      · have := hid.2 _ h
        rw [hnl] at this
        exact absurd this (by decide)
    · rw [hl] at hmem
      simp only [List.mem_cons, List.mem_append, List.mem_singleton, List.not_mem_nil,
        or_false] at hmem
      rcases hmem with h | h | h | h | h
      · revert h; decide
      · revert h; decide
      · revert h; decide
      · have := isSpace_digit _ (toDigits_digits e.2 _ h)
        rw [hnl] at this
        exact absurd this (by decide)
      · revert h; decide
  · show TrimPrefix (TrimSpace (sinkInputMarker ++ e.1)) sinkInputMarker = e.1
    rw [htrim]; exact TrimPrefix_append _ _

theorem storeBlock_stream (e : Str × Nat) (hid : e.1 ≠ [] ∧ ∀ ch ∈ e.1, isSpace ch = false)
    (hv : e.2 < 2 ^ 63) :
    (storeBlock e).stream.ID = e.1 ∧ (storeBlock e).stream.Volume = clampPercent e.2 := by
  obtain ⟨hwf, hbid⟩ := storeBlock_wellFormed e hid
  obtain ⟨h1, h2⟩ := storeLine_statesPercent e.2 hv
  refine ⟨by rw [Block.stream_ID _ hwf, hbid], ?_⟩
  exact Block.stream_volume (storeBlock e) hwf [] [] _ e.2 rfl h1 h2 (by simp)

/-- The streams parsed from the status text of a store, one per stored stream. -/
theorem parseStatus_storeStatus (s : Store) (h : s.Valid) :
    parseStatus (storeStatus s) = (s.map storeBlock).map Block.stream := by
  unfold storeStatus
  apply parseStatus_blocksText_of_ids
  intro b hb
  obtain ⟨e, he, rfl⟩ := List.mem_map.mp hb
  obtain ⟨hwf, hbid⟩ := storeBlock_wellFormed e (h e he)
  exact ⟨hwf, by rw [hbid]; exact (h e he).1⟩

theorem getApps_storeDaemon (s : Store) (log : List (Str × Str)) (h : s.Valid) :
    getApps storeDaemon ⟨s, log⟩ = ((s.map storeBlock).map Block.stream, ⟨s, log⟩) := by
  unfold getApps
  simp only [storeDaemon]
  rw [parseStatus_storeStatus s h]

theorem store_valid_update (pre post : Store) (id : Str) (c c1 : Nat)
    (h : Store.Valid (pre ++ (id, c) :: post)) : Store.Valid (pre ++ (id, c1) :: post) := by
  intro e he
  rcases List.mem_append.mp he with h1 | h1
  · exact h e (List.mem_append_left _ h1)
  · rcases List.mem_cons.mp h1 with h2 | h2
    · rw [h2]
      exact h (id, c) (by simp)
    · exact h e (List.mem_append_right _ (List.mem_cons_of_mem _ h2))

theorem store_streams_split (pre post : Store) (id : Str) (c : Nat) :
    ((pre ++ (id, c) :: post).map storeBlock).map Block.stream =
      (pre.map storeBlock).map Block.stream ++
        (storeBlock (id, c)).stream :: (post.map storeBlock).map Block.stream := by
  simp

theorem store_streams_ne (l : Store) (id : Str) (hv : Store.Valid l) (h : ∀ e ∈ l, e.1 ≠ id) :
    ∀ x ∈ (l.map storeBlock).map Block.stream, x.ID ≠ id := by
  intro x hx
  simp only [List.map_map, List.mem_map, Function.comp] at hx
  obtain ⟨e, he, rfl⟩ := hx
  obtain ⟨hwf, hbid⟩ := storeBlock_wellFormed e (hv e he)
  rw [Block.stream_ID _ hwf, hbid]
  exact h e he

theorem store_valid_left (pre rest : Store) (h : Store.Valid (pre ++ rest)) : Store.Valid pre :=
  fun e he => h e (List.mem_append_left _ he)

theorem store_valid_right (pre post : Store) (x : Str × Nat)
    (h : Store.Valid (pre ++ x :: post)) : Store.Valid post :=
  fun e he => h e (List.mem_append_right _ (List.mem_cons_of_mem _ he))

/-- The volume read back from a store for a stream that it holds once, at most at 100. -/
theorem getAppVolumeLoop_store (pre post : Store) (id : Str) (c : Nat)
    (hv : Store.Valid (pre ++ (id, c) :: post)) (hpre : ∀ e ∈ pre, e.1 ≠ id) (hc : c ≤ 100) :
    getAppVolumeLoop id (((pre ++ (id, c) :: post).map storeBlock).map Block.stream) = c := by
  obtain ⟨hid, hvol⟩ := storeBlock_stream (id, c) (hv (id, c) (by simp))
    (by show c < 2 ^ 63; omega)
  rw [store_streams_split, getAppVolumeLoop_first _ _ _ id hid
    (store_streams_ne pre id (store_valid_left pre _ hv) hpre), hvol]
  simp only [clampPercent, max_def, min_def]
  split_ifs <;> omega

/-- The volume merged into an entry with the id of a stream that the store holds once,
at most at 100. -/
theorem updateVolumesEntry_store (pre post : Store) (id : Str) (c : Nat) (a : App)
    (hv : Store.Valid (pre ++ (id, c) :: post)) (hpost : ∀ e ∈ post, e.1 ≠ id) (hc : c ≤ 100)
    (ha : a.ID = id) :
    (updateVolumesEntry (((pre ++ (id, c) :: post).map storeBlock).map Block.stream) a).Volume
      = c := by
  obtain ⟨hid, hvol⟩ := storeBlock_stream (id, c) (hv (id, c) (by simp))
    (by show c < 2 ^ 63; omega)
  have hne : ∀ x ∈ (post.map storeBlock).map Block.stream, x.ID ≠ a.ID := by
    rw [ha]
    exact store_streams_ne post id (store_valid_right pre post _ hv) hpost
  rw [store_streams_split, updateVolumesEntry_last _ _ _ a (by rw [hid, ha]) hne, hvol]
  simp only [clampPercent, max_def, min_def]
  split_ifs <;> omega

theorem setSinkInputVolume_store (pre post : Store) (id op : Str) (c : Nat)
    (hpre : ∀ e ∈ pre, e.1 ≠ id) (hpost : ∀ e ∈ post, e.1 ≠ id) :
    storeDaemon.setSinkInputVolume (pre ++ (id, c) :: post) id op =
      pre ++ (id, applyVolumeOp c op) :: post := by
  have hmap : ∀ l : Store, (∀ e ∈ l, e.1 ≠ id) →
      l.map (fun e => if e.1 = id then (e.1, applyVolumeOp e.2 op) else e) = l := by
    intro l hl
    conv_rhs => rw [← List.map_id l]
    apply List.map_congr_left
    intro e he
    rw [if_neg (hl e he)]
    rfl
  simp only [storeDaemon, List.map_append, List.map_cons, hmap pre hpre, hmap post hpost,
    if_true]

set_option maxRecDepth 100000 in
theorem applyVolumeOp_signed (c : Nat) :
    applyVolumeOp c (fmtSignedPercent 2) = c + 2 ∧ applyVolumeOp c (fmtSignedPercent 1) = c + 1 ∧
    applyVolumeOp c (fmtSignedPercent (-2)) = c - 2 ∧
    applyVolumeOp c (fmtSignedPercent (-1)) = c - 1 := by
  have e1 : fmtSignedPercent 2 = "+2%".toList := by decide
  have e2 : fmtSignedPercent 1 = "+1%".toList := by decide
  have e3 : fmtSignedPercent (-2) = "-2%".toList := by decide
  have e4 : fmtSignedPercent (-1) = "-1%".toList := by decide
  have a1 : Atoi (TrimSuffix "+2%".toList ['%']) = some 2 := by decide
  have a2 : Atoi (TrimSuffix "+1%".toList ['%']) = some 1 := by decide
  have a3 : Atoi (TrimSuffix "-2%".toList ['%']) = some (-2) := by decide
  have a4 : Atoi (TrimSuffix "-1%".toList ['%']) = some (-1) := by decide
  have s1 : HasSuffix "+2%".toList ['%'] = true := by decide
  have s2 : HasSuffix "+1%".toList ['%'] = true := by decide
  have s3 : HasSuffix "-2%".toList ['%'] = true := by decide
  have s4 : HasSuffix "-1%".toList ['%'] = true := by decide
  have p1 : HasPrefix "+2%".toList ['+'] = true := by decide
  have p2 : HasPrefix "+1%".toList ['+'] = true := by decide
  have p3 : HasPrefix "-2%".toList ['-'] = true := by decide
  have p4 : HasPrefix "-1%".toList ['-'] = true := by decide
  refine ⟨?_, ?_, ?_, ?_⟩
  · rw [e1]; unfold applyVolumeOp; simp only [s1, a1, p1, if_true, true_or]; omega
  · rw [e2]; unfold applyVolumeOp; simp only [s2, a2, p2, if_true, true_or]; omega
  · rw [e3]; unfold applyVolumeOp; simp only [s3, a3, p3, if_true, or_true]; omega
  · rw [e4]; unfold applyVolumeOp; simp only [s4, a4, p4, if_true, or_true]; omega

/-- The effect of `setVolume` on a store that holds the stream once, at `c ≤ 100`: the
effective delta `e` of the request is sent when it is not zero, and the store then
holds `c + e`. -/
theorem setVolume_store (pre post : Store) (id : Str) (c : Nat) (log : List (Str × Str))
    (delta e : Int) (c1 : Nat)
    (hv : Store.Valid (pre ++ (id, c) :: post)) (hpre : ∀ x ∈ pre, x.1 ≠ id)
    (hpost : ∀ x ∈ post, x.1 ≠ id) (hc : c ≤ 100)
    (he : effectiveDelta c delta = e) (h0 : e = 0 → c1 = c)
    (hop : e ≠ 0 → applyVolumeOp c (fmtSignedPercent e) = c1) :
    (setVolume storeDaemon ⟨pre ++ (id, c) :: post, log⟩ id delta).daemon =
        pre ++ (id, c1) :: post ∧
    (setVolume storeDaemon ⟨pre ++ (id, c) :: post, log⟩ id delta).issued =
        log ++ (if e = 0 then [] else [(id, fmtSignedPercent e)]) := by
  unfold setVolume getAppVolume
  simp only [getApps_storeDaemon _ log hv, getAppVolumeLoop_store pre post id c hv hpre hc, he]
  by_cases hz : e = 0
  · simp only [hz, if_true, List.append_nil, and_true]
    rw [h0 hz]
  · simp only [hz, if_false, and_true]
    rw [setSinkInputVolume_store pre post id _ c hpre hpost, hop hz]

theorem Update_right {σ : Type} (D : Daemon σ) (w : World σ) (m : model) :
    Update D w m (Msg.key "right".toList) = adjustSelected D w m 2 := by
  have h1 : ¬("right".toList = "q".toList ∨ "right".toList = "ctrl+c".toList) := by decide
  have h2 : ¬("right".toList = "up".toList) := by decide
  have h3 : ¬("right".toList = "down".toList) := by decide
  unfold Update
  dsimp only
  rw [if_neg h1, if_neg h2, if_neg h3, if_pos rfl]

theorem Update_left {σ : Type} (D : Daemon σ) (w : World σ) (m : model) :
    Update D w m (Msg.key "left".toList) = adjustSelected D w m (-2) := by
  have h1 : ¬("left".toList = "q".toList ∨ "left".toList = "ctrl+c".toList) := by decide
  have h2 : ¬("left".toList = "up".toList) := by decide
  have h3 : ¬("left".toList = "down".toList) := by decide
  have h4 : ¬("left".toList = "right".toList) := by decide
  unfold Update
  dsimp only
  rw [if_neg h1, if_neg h2, if_neg h3, if_neg h4, if_pos rfl]

theorem selectedApp_map (m : model) (g : App → App) (a : App) (h : selectedApp m = some a) :
    selectedApp { m with apps := m.apps.map g } = some (g a) := by
  unfold selectedApp at h ⊢
  dsimp only
  split_ifs at h ⊢ with h0
  rw [List.get?_eq_getElem?, List.getElem?_map, ← List.get?_eq_getElem?, h]
  rfl

theorem length_pos_of_selectedApp (m : model) (a : App) (h : selectedApp m = some a) :
    m.apps.length > 0 := by
  unfold selectedApp at h
  split_ifs at h
  cases hm : m.apps with
  | nil => rw [hm] at h; simp at h
  | cons x xs => simp

/-- One adjustment of the selected stream against a store that holds it once, at
`c ≤ 100`: the store ends at `c1 = c + e` for the effective delta `e`, and the merge
gives the selected stream the Volume `c1`. -/
theorem adjustSelected_store (pre post : Store) (id : Str) (c : Nat) (log : List (Str × Str))
    (m : model) (a : App) (delta e : Int) (c1 : Nat)
    (hv : Store.Valid (pre ++ (id, c) :: post)) (hpre : ∀ x ∈ pre, x.1 ≠ id)
    (hpost : ∀ x ∈ post, x.1 ≠ id) (hc : c ≤ 100) (hc1 : c1 ≤ 100)
    (he : effectiveDelta c delta = e) (h0 : e = 0 → c1 = c)
    (hop : e ≠ 0 → applyVolumeOp c (fmtSignedPercent e) = c1)
    (hsel : selectedApp m = some a) (ha : a.ID = id) :
    ∃ m1 w1 a1,
      adjustSelected storeDaemon ⟨pre ++ (id, c) :: post, log⟩ m delta =
        some (m1, Cmd.none, w1) ∧
      w1.daemon = pre ++ (id, c1) :: post ∧
      w1.issued = log ++ (if e = 0 then [] else [(id, fmtSignedPercent e)]) ∧
      selectedApp m1 = some a1 ∧ a1.ID = id ∧ a1.Volume = c1 := by
  obtain ⟨hd, hi⟩ := setVolume_store pre post id c log delta e c1 hv hpre hpost hc he h0 hop
  have hv1 := store_valid_update pre post id c c1 hv
  have hw : setVolume storeDaemon ⟨pre ++ (id, c) :: post, log⟩ id delta =
      ⟨pre ++ (id, c1) :: post, log ++ (if e = 0 then [] else [(id, fmtSignedPercent e)])⟩ := by
    cases hW : setVolume storeDaemon ⟨pre ++ (id, c) :: post, log⟩ id delta with
    | mk d i =>
      rw [hW] at hd hi
      simp only at hd hi
      rw [hd, hi]
  unfold adjustSelected
  rw [if_pos (length_pos_of_selectedApp m a hsel), hsel]
  simp only [ha, hw]
  unfold updateVolumes
  simp only [getApps_storeDaemon _ _ hv1]
  refine ⟨_, _, _, rfl, rfl, rfl, selectedApp_map m _ a hsel, ?_, ?_⟩
  · rw [(updateVolumesEntry_frame _ a).1, ha]
  · exact updateVolumesEntry_store pre post id c1 a hv1 hpost hc1 ha

set_option maxRecDepth 1000000 in
theorem exampleStore_two_increases :
    storeStatus exampleStore = "Sink Input #5\n\tVolume: 40%\nSink Input #12\n\tVolume: 75%".toList ∧
    (initialModel storeDaemon ⟨exampleStore, []⟩).1 = exampleModel ∧
    (run storeDaemon ⟨exampleStore, []⟩ exampleModel
        [Msg.key "right".toList, Msg.key "right".toList]).map
        (fun r => (r.1, r.2.daemon, r.2.issued)) =
      some (⟨[⟨"5".toList, [], 44, 40⟩, ⟨"12".toList, [], 75, 75⟩], 0, 0, 0⟩,
        [("5".toList, 44), ("12".toList, 75)],
        [("5".toList, "+2%".toList), ("5".toList, "+2%".toList)]) := by
  decide

theorem effectiveDelta_increase (c : Nat) (hc : c ≤ 100) :
    effectiveDelta c 2 = ((min (c + 2) 100 : Nat) : Int) - c := by
  rw [effectiveDelta_of_range c 2 ⟨by omega, by omega⟩ (by omega) (by omega)]
  simp only [clampPercent, max_def, min_def]
  split_ifs <;> omega

theorem effectiveDelta_decrease (c : Nat) (hc : c ≤ 100) :
    effectiveDelta c (-2) = ((c - 2 : Nat) : Int) - c := by
  rw [effectiveDelta_of_range c (-2) ⟨by omega, by omega⟩ (by omega) (by omega)]
  simp only [clampPercent, max_def, min_def]
  split_ifs <;> omega

/-- C13: with the daemon a store that applies each relative command exactly and reports
its volumes in its status text: from the store with the stream 5 at 40% and the stream
12 at 75%, and the model parsed from it with the selection 0, two "right" events leave
the stream 5 at the Volume 44 and the stream 12 at 75, in the model and in the store.
In general, when the store holds the selected stream once, at `c ≤ 100`, one "right"
event leaves it at `min(c + 2, 100)` and one "left" event at `max(c - 2, 0)`, in the
store and as the Volume of the selected stream of the model. -/
theorem storeDaemon_adjust (pre post : Store) (id : Str) (c : Nat) (log : List (Str × Str))
    (m : model) (a : App)
    (hv : Store.Valid (pre ++ (id, c) :: post)) (hpre : ∀ x ∈ pre, x.1 ≠ id)
    (hpost : ∀ x ∈ post, x.1 ≠ id) (hc : c ≤ 100)
    (hsel : selectedApp m = some a) (ha : a.ID = id) :
    (∃ m1 w1 a1,
      Update storeDaemon ⟨pre ++ (id, c) :: post, log⟩ m (Msg.key "right".toList) =
        some (m1, Cmd.none, w1) ∧
      w1.daemon = pre ++ (id, min (c + 2) 100) :: post ∧
      selectedApp m1 = some a1 ∧ a1.ID = id ∧ a1.Volume = min ((c : Int) + 2) 100) ∧
    (∃ m1 w1 a1,
      Update storeDaemon ⟨pre ++ (id, c) :: post, log⟩ m (Msg.key "left".toList) =
        some (m1, Cmd.none, w1) ∧
      w1.daemon = pre ++ (id, c - 2) :: post ∧
      selectedApp m1 = some a1 ∧ a1.ID = id ∧ a1.Volume = max ((c : Int) - 2) 0) ∧
    ((initialModel storeDaemon ⟨exampleStore, []⟩).1 = exampleModel ∧
      (run storeDaemon ⟨exampleStore, []⟩ exampleModel
          [Msg.key "right".toList, Msg.key "right".toList]).map
          (fun r => (r.1, r.2.daemon, r.2.issued)) =
        some (⟨[⟨"5".toList, [], 44, 40⟩, ⟨"12".toList, [], 75, 75⟩], 0, 0, 0⟩,
          [("5".toList, 44), ("12".toList, 75)],
          [("5".toList, "+2%".toList), ("5".toList, "+2%".toList)])) := by
  obtain ⟨p2, p1, m2, m1⟩ := applyVolumeOp_signed c
  refine ⟨?_, ?_, exampleStore_two_increases.2⟩
  · obtain ⟨m1, w1, a1, h1, h2, _, h4, h5, h6⟩ :=
      adjustSelected_store pre post id c log m a 2 _ (min (c + 2) 100) hv hpre hpost hc
        (by omega) (effectiveDelta_increase c hc) (by omega)
        (by
          intro hne
          rcases (by omega : c ≤ 98 ∨ c = 99 ∨ c = 100) with h | h | h
          · rw [show ((min (c + 2) 100 : Nat) : Int) - c = 2 by omega, p2]; omega
          · rw [show ((min (c + 2) 100 : Nat) : Int) - c = 1 by omega, p1]; omega
          · omega)
        hsel ha
    refine ⟨m1, w1, a1, by rw [Update_right]; exact h1, h2, h4, h5, ?_⟩
    rw [h6]; omega
  · obtain ⟨m1, w1, a1, h1, h2, _, h4, h5, h6⟩ :=
      adjustSelected_store pre post id c log m a (-2) _ (c - 2) hv hpre hpost hc
        (by omega) (effectiveDelta_decrease c hc) (by omega)
        (by
          intro hne
          rcases (by omega : c = 0 ∨ c = 1 ∨ 2 ≤ c) with h | h | h
          · omega
          · rw [show ((c - 2 : Nat) : Int) - c = -1 by omega, m1]; omega
          · rw [show ((c - 2 : Nat) : Int) - c = -2 by omega, m2])
        hsel ha
    refine ⟨m1, w1, a1, by rw [Update_left]; exact h1, h2, h4, h5, ?_⟩
    rw [h6]; omega

set_option maxRecDepth 100000 in
/-- Witness of C13: the stream 5 of the example store, selected in the example model. -/
theorem storeDaemon_adjust_witness :
    Store.Valid ([] ++ ("5".toList, 40) :: [("12".toList, 75)]) ∧
    selectedApp exampleModel = some ⟨"5".toList, [], 40, 40⟩ ∧
    ∃ m1 w1 a1,
      Update storeDaemon ⟨[] ++ ("5".toList, 40) :: [("12".toList, 75)], []⟩ exampleModel
          (Msg.key "right".toList) = some (m1, Cmd.none, w1) ∧
      w1.daemon = [] ++ ("5".toList, min (40 + 2) 100) :: [("12".toList, 75)] ∧
      selectedApp m1 = some a1 ∧ a1.ID = "5".toList ∧ a1.Volume = min (((40 : Nat) : Int) + 2) 100 :=
  ⟨by unfold Store.Valid; decide, by decide,
    (storeDaemon_adjust [] [("12".toList, 75)] "5".toList 40 [] exampleModel
      ⟨"5".toList, [], 40, 40⟩ (by unfold Store.Valid; decide) (by decide) (by decide)
      (by decide) (by decide) rfl).1⟩

end Volctl
